import Mathlib

/-!
# UrlSwitchInput: the rule-matching engine

A shallow embedding of `internal/config/config.go` and
`internal/matcher/matcher.go`.

Go strings are embedded as Lean strings, read as their list of runes
(`String.data`).  Rule patterns and URLs reach the engine through the JSON
decoder, which only produces valid UTF-8, and on valid UTF-8 the byte-wise
operations of the `strings` package used here (containment, splitting on an
ASCII separator, replacing an ASCII substring) coincide with the same
operations on runes.

The `regexp` package and `unicode.ToLower` belong to the Go standard library,
not to this repository.  They are a parameter of the development
(`GoLib`): the theorems about the engine hold for every such library.  Only
the reading of wildcard patterns as globs needs more, namely that the library
implements the small fragment of the regexp syntax the wildcard strategy
produces (`GoLib.Conforms`); a reference engine for that fragment (`refLib`)
shows the assumption can be met.
-/

namespace UrlSwitchInput

/-! ## The `strings` package, on rune lists -/

/-- The test `strings.HasPrefix(s, p)`. -/
def hasPrefixL : List Char → List Char → Bool
  | _, [] => true
  | [], _ :: _ => false
  | c :: s, d :: p => decide (c = d) && hasPrefixL s p

/-- The test `strings.Contains(s, sub)`: `sub` occurs in `s` as a contiguous block. -/
def containsL : List Char → List Char → Bool
  | [], sub => hasPrefixL [] sub
  | c :: s, sub => hasPrefixL (c :: s) sub || containsL s sub

/-- The call `strings.Split(s, sep)` for a separator of one ASCII character. -/
def splitL (sep : Char) : List Char → List (List Char)
  | [] => [[]]
  | c :: s =>
    if c = sep then [] :: splitL sep s
    else
      match splitL sep s with
      | [] => [[c]]
      | w :: ws => (c :: w) :: ws

/-- The predicate `unicode.IsSpace`: the code points with the White_Space property. -/
def isSpace (c : Char) : Bool :=
  let n := c.toNat
  (0x09 ≤ n && n ≤ 0x0d) || n = 0x20 || n = 0x85 || n = 0xa0 || n = 0x1680 ||
  (0x2000 ≤ n && n ≤ 0x200a) || n = 0x2028 || n = 0x2029 || n = 0x202f ||
  n = 0x205f || n = 0x3000

/-- The call `strings.TrimSpace(s)`: leading and trailing white space removed. -/
def trimSpaceL (s : List Char) : List Char :=
  ((s.dropWhile isSpace).reverse.dropWhile isSpace).reverse

/-- Worker of `replaceAllL`: `skip` counts the runes of an occurrence of `old`
that are still to be dropped. -/
def replaceAux (old new : List Char) : Nat → List Char → List Char
  | _, [] => []
  | skip + 1, _ :: s => replaceAux old new skip s
  | 0, c :: s =>
    if hasPrefixL (c :: s) old then new ++ replaceAux old new (old.length - 1) s
    else c :: replaceAux old new 0 s

/-- The call `strings.ReplaceAll(s, old, new)` for a non-empty `old`: the
non-overlapping occurrences of `old` are replaced from left to right. -/
def replaceAllL (s old new : List Char) : List Char :=
  replaceAux old new 0 s

/-- The formatting of a `[]string` by the verb `%v`: `[a b c]`. -/
def fmtStrings (xs : List String) : String :=
  "[" ++ " ".intercalate xs ++ "]"

/-! ## The `regexp` package -/

/-- The bytes `regexp.QuoteMeta` escapes (`specialBytes` of the package). -/
def quoteMetaSpecial (c : Char) : Bool :=
  c = '\\' || c = '.' || c = '+' || c = '*' || c = '?' || c = '(' || c = ')' ||
  c = '|' || c = '[' || c = ']' || c = '{' || c = '}' || c = '^' || c = '$'

/-- The call `regexp.QuoteMeta(s)`: a backslash before every special byte. -/
def quoteMetaL : List Char → List Char
  | [] => []
  | c :: s => if quoteMetaSpecial c then '\\' :: c :: quoteMetaL s else c :: quoteMetaL s

/-- The part of the Go standard library the engine calls and this development
does not define: the regular-expression engine and the rune lowering of
`strings.ToLower`. -/
structure GoLib where
  /-- The type `*regexp.Regexp` of compiled expressions. -/
  Regexp : Type
  /-- The function `regexp.Compile`; the error carries its message. -/
  compile : String → Except String Regexp
  /-- The method `FindStringSubmatch`: the whole match followed by the capture
  groups, or the empty (nil) slice when there is no match. -/
  findStringSubmatch : Regexp → String → List String
  /-- The method `MatchString`. -/
  matchString : Regexp → String → Bool
  /-- The function `unicode.ToLower`, which `strings.ToLower` applies to each rune. -/
  toLower : Char → Char

/-- The call `strings.ToLower(s)`. -/
def GoLib.toLowerL (E : GoLib) (s : List Char) : List Char :=
  s.map E.toLower

/-! ## `internal/config` -/

/-- The type `config.MatchType`, a string. -/
abbrev MatchType := String

/-- The constant `config.MatchTypeRegex`. -/
def MatchTypeRegex : MatchType := "regex"

/-- The constant `config.MatchTypeExact`. -/
def MatchTypeExact : MatchType := "exact"

/-- The constant `config.MatchTypeKeyword`. -/
def MatchTypeKeyword : MatchType := "keyword"

/-- The constant `config.MatchTypeWildcard`. -/
def MatchTypeWildcard : MatchType := "wildcard"

/-- The struct `config.Rule`. -/
structure Rule where
  Name : String
  URLPattern : String
  MatchType : UrlSwitchInput.MatchType
  Description : String
  Enabled : Bool
  deriving DecidableEq, Repr

/-- The zero value of `config.Rule`. -/
def Rule.zero : Rule :=
  { Name := "", URLPattern := "", MatchType := "", Description := "", Enabled := false }

/-- The struct `config.Config`. -/
structure Config where
  Rules : List Rule
  deriving DecidableEq, Repr

/-- The list `regexChars` shared by `containsRegexChars` and `isRegexPattern`. -/
def regexChars : List Char :=
  ['(', ')', '[', ']', '{', '}', '^', '$', '+', '?', '|', '\\']

/-- The method `Config.containsRegexChars`. -/
def Config.containsRegexChars (pattern : String) : Bool :=
  regexChars.any (fun char => containsL pattern.data [char])

/-- The body of the loop of `Config.GetEnabledRules` for one enabled rule: the
default match type of an old configuration. -/
def Config.defaultMatchType (rule : Rule) : Rule :=
  if rule.MatchType = "" then
    if Config.containsRegexChars rule.URLPattern then
      { rule with MatchType := MatchTypeRegex }
    else if containsL rule.URLPattern.data ['*'] then
      { rule with MatchType := MatchTypeWildcard }
    else
      { rule with MatchType := MatchTypeKeyword }
  else rule

/-- The method `Config.GetEnabledRules`. -/
def Config.GetEnabledRules (c : Config) : List Rule :=
  c.Rules.foldl
    (fun enabledRules rule =>
      if rule.Enabled then enabledRules ++ [Config.defaultMatchType rule] else enabledRules)
    []

/-! ## `internal/matcher` -/

/-- The map `regexCache`: an association list with distinct keys. -/
abbrev Cache (E : GoLib) := List (String × E.Regexp)

/-- The map read `regexCache[k]`. -/
def cacheGet {E : GoLib} : Cache E → String → Option E.Regexp
  | [], _ => none
  | (k', v) :: c, k => if k' = k then some v else cacheGet c k

/-- The map write `regexCache[k] = v`: the entry of `k` is replaced when there
is one and added otherwise. -/
def cacheSet {E : GoLib} (k : String) (v : E.Regexp) : Cache E → Cache E
  | [] => [(k, v)]
  | (k', v') :: c => if k' = k then (k, v) :: c else (k', v') :: cacheSet k v c

/-- The struct `matcher.URLMatcher`. -/
structure URLMatcher (E : GoLib) where
  rules : List Rule
  regexCache : Cache E

/-- The struct `matcher.MatchResult`. -/
structure MatchResult where
  Matched : Bool
  Rule : UrlSwitchInput.Rule
  MatchType : UrlSwitchInput.MatchType
  Details : String
  deriving DecidableEq, Repr

/-- The body of the loop of `URLMatcher.precompileRegex`, for one rule. -/
def URLMatcher.precompileStep {E : GoLib} (m : URLMatcher E) (rule : Rule) : URLMatcher E :=
  if rule.MatchType = MatchTypeRegex then
    match E.compile rule.URLPattern with
    | .ok regex => { m with regexCache := cacheSet rule.URLPattern regex m.regexCache }
    | .error _ => m
  else m

/-- The method `URLMatcher.precompileRegex`. -/
def URLMatcher.precompileRegex {E : GoLib} (m : URLMatcher E) : URLMatcher E :=
  m.rules.foldl URLMatcher.precompileStep m

/-- The constructor `NewURLMatcher`. -/
def NewURLMatcher (E : GoLib) (rules : List Rule) : URLMatcher E :=
  URLMatcher.precompileRegex { rules := rules, regexCache := [] }

/-- The tail of `regexMatch`, once the compiled expression is at hand. -/
def regexFind (E : GoLib) (regex : E.Regexp) (url : String) : Bool × String :=
  let submatches := E.findStringSubmatch regex url
  if submatches.length > 0 then
    if submatches.length > 1 then
      (true, "正则匹配成功，捕获组: " ++ fmtStrings (submatches.drop 1))
    else (true, "正则匹配成功")
  else (false, "正则匹配失败")

/-- The method `URLMatcher.regexMatch`; the matcher is returned with its cache. -/
def URLMatcher.regexMatch {E : GoLib} (m : URLMatcher E) (url : String) (rule : Rule) :
    (Bool × String) × URLMatcher E :=
  match cacheGet m.regexCache rule.URLPattern with
  | some regex => (regexFind E regex url, m)
  | none =>
    match E.compile rule.URLPattern with
    | .error err => ((false, "正则表达式编译失败: " ++ err), m)
    | .ok regex =>
      (regexFind E regex url,
        { m with regexCache := cacheSet rule.URLPattern regex m.regexCache })

/-- The method `URLMatcher.exactMatch`. -/
def URLMatcher.exactMatch (url : String) (rule : Rule) : Bool × String :=
  if url = rule.URLPattern then (true, "精准匹配成功") else (false, "精准匹配失败")

/-- The method `URLMatcher.parseKeywords`. -/
def URLMatcher.parseKeywords (pattern : String) : List String :=
  let keywords : List (List Char) :=
    if containsL pattern.data [','] then splitL ',' pattern.data
    else if containsL pattern.data [';'] then splitL ';' pattern.data
    else if containsL pattern.data ['|'] then splitL '|' pattern.data
    else [pattern.data]
  keywords.foldl
    (fun cleanKeywords keyword =>
      let cleaned := trimSpaceL keyword
      if cleaned ≠ [] then cleanKeywords ++ [String.mk cleaned] else cleanKeywords)
    []

/-- The loop of `URLMatcher.keywordMatch` that collects `matchedKeywords`. -/
def URLMatcher.matchedKeywords (E : GoLib) (url : String) (keywords : List String) :
    List String :=
  keywords.foldl
    (fun matchedKeywords keyword =>
      let keyword := String.mk (trimSpaceL keyword.data)
      if keyword = "" then matchedKeywords
      else if containsL (E.toLowerL url.data) (E.toLowerL keyword.data) then
        matchedKeywords ++ [keyword]
      else matchedKeywords)
    []

/-- The method `URLMatcher.keywordMatch`. -/
def URLMatcher.keywordMatch (E : GoLib) (url : String) (rule : Rule) : Bool × String :=
  let keywords := URLMatcher.parseKeywords rule.URLPattern
  let matchedKeywords := URLMatcher.matchedKeywords E url keywords
  if matchedKeywords.length > 0 then
    if matchedKeywords.length = keywords.length then
      (true, "所有关键词匹配成功: " ++ fmtStrings matchedKeywords)
    else (true, "部分关键词匹配成功: " ++ fmtStrings matchedKeywords)
  else (false, "关键词匹配失败")

/-- The method `URLMatcher.wildcardToRegex`. -/
def URLMatcher.wildcardToRegex (pattern : String) : String :=
  let escaped := quoteMetaL pattern.data
  let regexPattern := replaceAllL escaped ['\\', '*'] ['.', '*']
  String.mk (['^'] ++ regexPattern ++ ['$'])

/-- The method `URLMatcher.wildcardMatch`. -/
def URLMatcher.wildcardMatch (E : GoLib) (url : String) (rule : Rule) : Bool × String :=
  let regexPattern := URLMatcher.wildcardToRegex rule.URLPattern
  match E.compile regexPattern with
  | .error err => (false, "通配符转换失败: " ++ err)
  | .ok regex =>
    if E.matchString regex url then (true, "通配符匹配成功") else (false, "通配符匹配失败")

/-- The method `URLMatcher.isRegexPattern`. -/
def URLMatcher.isRegexPattern (pattern : String) : Bool :=
  regexChars.any (fun char => containsL pattern.data [char])

/-- The method `URLMatcher.autoMatch`. -/
def URLMatcher.autoMatch {E : GoLib} (m : URLMatcher E) (url : String) (rule : Rule) :
    (Bool × String) × URLMatcher E :=
  let pattern := rule.URLPattern
  if URLMatcher.isRegexPattern pattern then
    m.regexMatch url { Rule.zero with URLPattern := pattern, MatchType := MatchTypeRegex }
  else if containsL pattern.data ['*'] then
    (URLMatcher.wildcardMatch E url
      { Rule.zero with URLPattern := pattern, MatchType := MatchTypeWildcard }, m)
  else
    (URLMatcher.keywordMatch E url
      { Rule.zero with URLPattern := pattern, MatchType := MatchTypeKeyword }, m)

/-- The method `URLMatcher.matchByType`. -/
def URLMatcher.matchByType {E : GoLib} (m : URLMatcher E) (url : String) (rule : Rule) :
    (Bool × String) × URLMatcher E :=
  if rule.MatchType = MatchTypeRegex then m.regexMatch url rule
  else if rule.MatchType = MatchTypeExact then (URLMatcher.exactMatch url rule, m)
  else if rule.MatchType = MatchTypeKeyword then (URLMatcher.keywordMatch E url rule, m)
  else if rule.MatchType = MatchTypeWildcard then (URLMatcher.wildcardMatch E url rule, m)
  else m.autoMatch url rule

/-- The loop of `URLMatcher.Match` over the rules still to be tried. -/
def URLMatcher.matchLoop {E : GoLib} (url : String) :
    List Rule → URLMatcher E → MatchResult × URLMatcher E
  | [], m =>
    ({ Matched := false, Rule := Rule.zero, MatchType := "", Details := "未匹配任何规则" }, m)
  | rule :: rest, m =>
    if !rule.Enabled then URLMatcher.matchLoop url rest m
    else
      let r := m.matchByType url rule
      if r.1.1 then
        ({ Matched := true, Rule := rule, MatchType := rule.MatchType, Details := r.1.2 }, r.2)
      else URLMatcher.matchLoop url rest r.2

/-- The method `URLMatcher.Match`; the matcher is returned with its cache. -/
def URLMatcher.Match {E : GoLib} (m : URLMatcher E) (url : String) :
    MatchResult × URLMatcher E :=
  URLMatcher.matchLoop url m.rules m

/-- The matcher after `Match` was called on each URL of a sequence in turn. -/
def URLMatcher.afterAll {E : GoLib} (m : URLMatcher E) (urls : List String) : URLMatcher E :=
  urls.foldl (fun m url => (m.Match url).2) m

/-! ## Cache-free reading of the matchers

What each strategy decides about a URL, with the expression compiled afresh
instead of looked up.  The engine agrees with it as long as the cache only
holds what `compile` returns (`CacheOK`). -/

/-- The verdict of `regexMatch` on a pattern when nothing is cached. -/
def regexVerdict (E : GoLib) (url pattern : String) : Bool × String :=
  match E.compile pattern with
  | .error err => (false, "正则表达式编译失败: " ++ err)
  | .ok regex => regexFind E regex url

/-- The strategy legacy auto-detection infers from a pattern. -/
def inferredMatchType (pattern : String) : MatchType :=
  if URLMatcher.isRegexPattern pattern then MatchTypeRegex
  else if containsL pattern.data ['*'] then MatchTypeWildcard
  else MatchTypeKeyword

/-- A match type is declared when it is one of the four known strategies. -/
def isDeclared (t : MatchType) : Bool :=
  t = MatchTypeRegex || t = MatchTypeExact || t = MatchTypeKeyword || t = MatchTypeWildcard

/-- The strategy a rule is matched with: the declared one, or the inferred one
when none is declared. -/
def effectiveMatchType (rule : Rule) : MatchType :=
  if isDeclared rule.MatchType then rule.MatchType else inferredMatchType rule.URLPattern

/-- The verdict and detail of a rule on a URL, by its strategy. -/
def ruleVerdict (E : GoLib) (url : String) (rule : Rule) : Bool × String :=
  let t := effectiveMatchType rule
  if t = MatchTypeRegex then regexVerdict E url rule.URLPattern
  else if t = MatchTypeExact then URLMatcher.exactMatch url rule
  else if t = MatchTypeKeyword then URLMatcher.keywordMatch E url rule
  else URLMatcher.wildcardMatch E url rule

/-- The rule accepts the URL: it is enabled and its strategy matches. -/
def accepts (E : GoLib) (url : String) (rule : Rule) : Bool :=
  rule.Enabled && (ruleVerdict E url rule).1

/-- The result `Match` is specified to return: the first accepting rule, if any. -/
def firstMatch (E : GoLib) (rules : List Rule) (url : String) : MatchResult :=
  match rules.find? (accepts E url) with
  | some rule =>
    { Matched := true, Rule := rule, MatchType := rule.MatchType,
      Details := (ruleVerdict E url rule).2 }
  | none =>
    { Matched := false, Rule := Rule.zero, MatchType := "", Details := "未匹配任何规则" }

/-- The answer of a matcher built from `rules` to `url`, after it has answered
the URLs of `urls`. -/
def evaluate (E : GoLib) (rules : List Rule) (urls : List String) (url : String) : MatchResult :=
  (((NewURLMatcher E rules).afterAll urls).Match url).1

/-- Every cached expression is what `compile` returns for its key. -/
def CacheOK {E : GoLib} (c : Cache E) : Prop :=
  ∀ k v, cacheGet c k = some v → E.compile k = .ok v

/-- The keys of the cache, in insertion order. -/
def cacheKeys {E : GoLib} (c : Cache E) : List String :=
  c.map Prod.fst


/-! ## A fragment of the regexp syntax

The expressions built from literal runes, escaped special bytes and `.`,
each optionally starred, between an optional `^` and an optional `$`.  The
wildcard strategy only ever compiles expressions of this fragment. -/

/-- One rune of text: a given rune, or (for `.`) any rune but the newline. -/
inductive Atom where
  | lit (c : Char)
  | any
  deriving DecidableEq, Repr

/-- The runes an atom matches. -/
def Atom.accepts : Atom → Char → Bool
  | .lit c, d => decide (c = d)
  | .any, d => decide (d ≠ '\n')

/-- An atom, starred or not. -/
structure Piece where
  atom : Atom
  star : Bool
  deriving DecidableEq, Repr

/-- An expression of the fragment. -/
structure Frag where
  bol : Bool
  pieces : List Piece
  eol : Bool
  deriving DecidableEq, Repr

/-- The lexical items of the fragment. -/
inductive Tok where
  | atom (a : Atom)
  | star
  | bol
  | eol
  deriving DecidableEq, Repr

/-- Lexer of the fragment: `\c` for a special byte `c`, `.`, `*`, `^`, `$`
and the runes that are not special; everything else is outside the fragment. -/
def tokenize : List Char → Option (List Tok)
  | [] => some []
  | c :: s =>
    if c = '\\' then
      match s with
      | [] => none
      | d :: s' =>
        if quoteMetaSpecial d then (tokenize s').map (fun ts => Tok.atom (.lit d) :: ts)
        else none
    else if c = '.' then (tokenize s).map (fun ts => Tok.atom .any :: ts)
    else if c = '*' then (tokenize s).map (fun ts => Tok.star :: ts)
    else if c = '^' then (tokenize s).map (fun ts => Tok.bol :: ts)
    else if c = '$' then (tokenize s).map (fun ts => Tok.eol :: ts)
    else if quoteMetaSpecial c then none
    else (tokenize s).map (fun ts => Tok.atom (.lit c) :: ts)

/-- The pieces of a token list and whether it ends in `$`. -/
def toPieces : List Tok → Option (List Piece × Bool)
  | [] => some ([], false)
  | [Tok.eol] => some ([], true)
  | Tok.atom a :: Tok.star :: ts => (toPieces ts).map (fun r => (⟨a, true⟩ :: r.1, r.2))
  | Tok.atom a :: ts => (toPieces ts).map (fun r => (⟨a, false⟩ :: r.1, r.2))
  | _ => none

/-- Parser of the fragment. -/
def parseFrag (s : List Char) : Option Frag :=
  match tokenize s with
  | none => none
  | some (Tok.bol :: ts) => (toPieces ts).map (fun r => ⟨true, r.1, r.2⟩)
  | some ts => (toPieces ts).map (fun r => ⟨false, r.1, r.2⟩)

/-- The pieces match the whole of a text. -/
inductive PiecesMatch : List Piece → List Char → Prop where
  | nil : PiecesMatch [] []
  | one {a : Atom} {c : Char} {ps : List Piece} {t : List Char} :
      a.accepts c = true → PiecesMatch ps t → PiecesMatch (⟨a, false⟩ :: ps) (c :: t)
  | starSkip {a : Atom} {ps : List Piece} {t : List Char} :
      PiecesMatch ps t → PiecesMatch (⟨a, true⟩ :: ps) t
  | starStep {a : Atom} {c : Char} {ps : List Piece} {t : List Char} :
      a.accepts c = true → PiecesMatch (⟨a, true⟩ :: ps) t →
      PiecesMatch (⟨a, true⟩ :: ps) (c :: t)

/-- The expression matches somewhere in the text: at its start when the
expression opens with `^`, up to its end when it closes with `$`. -/
def FragMatches (f : Frag) (u : List Char) : Prop :=
  ∃ pre mid post, u = pre ++ mid ++ post ∧ (f.bol = true → pre = []) ∧
    (f.eol = true → post = []) ∧ PiecesMatch f.pieces mid

/-- The library implements the fragment: its expressions compile, and
`MatchString` finds a match exactly when there is one. -/
def GoLib.Conforms (E : GoLib) : Prop :=
  ∀ (s : String) (f : Frag), parseFrag s.data = some f →
    ∃ r, E.compile s = .ok r ∧ ∀ u : String, (E.matchString r u = true ↔ FragMatches f u.data)

/-- A wildcard pattern matches a text: `*` stands for any run of runes
without a newline, every other rune for itself. -/
inductive GlobMatches : List Char → List Char → Prop where
  | nil : GlobMatches [] []
  | lit {c : Char} {p t : List Char} :
      c ≠ '*' → GlobMatches p t → GlobMatches (c :: p) (c :: t)
  | starSkip {p t : List Char} : GlobMatches p t → GlobMatches ('*' :: p) t
  | starStep {c : Char} {p t : List Char} :
      c ≠ '\n' → GlobMatches ('*' :: p) t → GlobMatches ('*' :: p) (c :: t)

/-- The expression of a wildcard pattern, rune by rune: `.*` for a star, a
backslash before any other special byte, and the anchors around. -/
def wildcardExpr (pattern : List Char) : List Char :=
  ['^'] ++
    (pattern.map (fun c =>
      if c = '*' then ['.', '*'] else if quoteMetaSpecial c then ['\\', c] else [c])).flatten ++
    ['$']

/-! ## A reference library

An engine for the fragment alone (any other expression is refused) and the
ASCII lowering.  It instantiates the theorems at concrete inputs. -/

/-- Greedy star: take as many runes as the atom accepts, giving back one at a
time until the continuation succeeds.  The result is the length matched. -/
def matchStar (a : Atom) (k : List Char → Option Nat) : List Char → Option Nat
  | [] => k []
  | c :: t =>
    if a.accepts c then
      match matchStar a k t with
      | some n => some (n + 1)
      | none => k (c :: t)
    else k (c :: t)

/-- The length of the leftmost-first match of the pieces at the head of a text. -/
def matchHere (eol : Bool) : List Piece → List Char → Option Nat
  | [], t => if eol && !t.isEmpty then none else some 0
  | p :: ps, t =>
    if p.star then matchStar p.atom (matchHere eol ps) t
    else
      match t with
      | [] => none
      | c :: t' => if p.atom.accepts c then (matchHere eol ps t').map (fun n => n + 1) else none

/-- The leftmost match of an expression of the fragment in a text. -/
def searchL (f : Frag) : List Char → Option (List Char)
  | [] => (matchHere f.eol f.pieces []).map (fun n => List.take n [])
  | c :: t =>
    match matchHere f.eol f.pieces (c :: t) with
    | some n => some ((c :: t).take n)
    | none => if f.bol then none else searchL f t

/-- The reference library. -/
def refLib : GoLib where
  Regexp := Frag
  compile := fun s =>
    match parseFrag s.data with
    | some f => .ok f
    | none => .error ("error parsing regexp: not in the fragment: " ++ s)
  findStringSubmatch := fun f u =>
    match searchL f u.data with
    | some w => [String.mk w]
    | none => []
  matchString := fun f u => (searchL f u.data).isSome
  toLower := Char.toLower

/-! ## The keyword separator, as specified -/

/-- The separator a keyword pattern is split on: the first of `,`, `;`, `|`
that occurs in it. -/
def keywordSeparator (s : List Char) : Option Char :=
  if ',' ∈ s then some ',' else if ';' ∈ s then some ';' else if '|' ∈ s then some '|' else none

/-- The pieces of a keyword pattern, before they are trimmed: the pattern split on its
separator, or the pattern itself when it has none. -/
def keywordPieces (s : List Char) : List (List Char) :=
  match keywordSeparator s with
  | some sep => splitL sep s
  | none => [s]

/-! ## Keyword containment, as specified -/

/-- The keyword occurs in the URL ignoring case: the lower-cased keyword is a
contiguous part of the lower-cased URL. -/
def tokenFound (E : GoLib) (url token : String) : Prop :=
  ∃ pre post, E.toLowerL url.data = pre ++ E.toLowerL token.data ++ post

/-- The pieces of the expression of a wildcard pattern: a starred `.` for each
star, the rune itself for any other rune. -/
def globPieces (pattern : List Char) : List Piece :=
  pattern.map (fun c => if c = '*' then ⟨Atom.any, true⟩ else ⟨Atom.lit c, false⟩)

/-- The tokens of the expression of a wildcard pattern, anchors apart. -/
def globToks (pattern : List Char) : List Tok :=
  (pattern.map (fun c =>
    if c = '*' then [Tok.atom Atom.any, Tok.star] else [Tok.atom (Atom.lit c)])).flatten
/-! ## Basic facts -/

theorem cacheGet_cacheSet {E : GoLib} (k : String) (v : E.Regexp) (c : Cache E) (k' : String) :
    cacheGet (cacheSet k v c) k' = if k = k' then some v else cacheGet c k' := by
  induction c with
  | nil => simp [cacheSet, cacheGet]
  | cons kv c ih =>
    obtain ⟨k0, v0⟩ := kv
    by_cases h : k0 = k
    · subst h
      by_cases h' : k0 = k' <;> simp [cacheSet, cacheGet, h']
    · by_cases h' : k = k'
      · subst h'
        simp [cacheSet, cacheGet, h, ih]
      · by_cases h0 : k0 = k'
        · subst h0
          simp [cacheSet, cacheGet, h, h']
        · simp [cacheSet, cacheGet, h, h', h0, ih]

theorem cacheOK_nil {E : GoLib} : CacheOK ([] : Cache E) := by
  intro k v h
  simp [cacheGet] at h

theorem cacheOK_set {E : GoLib} {c : Cache E} {k : String} {v : E.Regexp}
    (hc : CacheOK c) (hk : E.compile k = .ok v) : CacheOK (cacheSet k v c) := by
  intro k' v' h
  rw [cacheGet_cacheSet] at h
  by_cases e : k = k'
  · subst e
    simp at h
    subst h
    exact hk
  · simp [e] at h
    exact hc k' v' h

theorem getEnabledRules_eq (c : Config) :
    c.GetEnabledRules = (c.Rules.filter (fun r => r.Enabled)).map Config.defaultMatchType := by
  unfold Config.GetEnabledRules
  suffices h : ∀ (l acc : List Rule),
      l.foldl (fun enabledRules rule =>
        if rule.Enabled then enabledRules ++ [Config.defaultMatchType rule] else enabledRules) acc
        = acc ++ (l.filter (fun r => r.Enabled)).map Config.defaultMatchType by
    simpa using h c.Rules []
  intro l
  induction l with
  | nil => intro acc; simp
  | cons r l ih =>
    intro acc
    by_cases h : r.Enabled <;> simp [List.foldl, h, ih]

/-! ## The engine against the cache-free reading -/

theorem regexMatch_spec {E : GoLib} (m : URLMatcher E) (url : String) (rule : Rule)
    (hc : CacheOK m.regexCache) :
    (m.regexMatch url rule).1 = regexVerdict E url rule.URLPattern ∧
    (m.regexMatch url rule).2.rules = m.rules ∧
    CacheOK (m.regexMatch url rule).2.regexCache := by
  unfold URLMatcher.regexMatch regexVerdict
  cases h : cacheGet m.regexCache rule.URLPattern with
  | some regex =>
    have := hc _ _ h
    simp [this, hc]
  | none =>
    cases h2 : E.compile rule.URLPattern with
    | error err => simp [hc]
    | ok regex => simp [cacheOK_set hc h2]

theorem matchTypes_ne :
    MatchTypeRegex ≠ MatchTypeExact ∧ MatchTypeRegex ≠ MatchTypeKeyword ∧
    MatchTypeRegex ≠ MatchTypeWildcard ∧ MatchTypeExact ≠ MatchTypeKeyword ∧
    MatchTypeExact ≠ MatchTypeWildcard ∧ MatchTypeKeyword ≠ MatchTypeWildcard := by
  decide

theorem inferred_cases (pattern : String) :
    inferredMatchType pattern = MatchTypeRegex ∨ inferredMatchType pattern = MatchTypeWildcard ∨
    inferredMatchType pattern = MatchTypeKeyword := by
  unfold inferredMatchType
  split
  · exact Or.inl rfl
  · split
    · exact Or.inr (Or.inl rfl)
    · exact Or.inr (Or.inr rfl)

theorem autoMatch_spec {E : GoLib} (m : URLMatcher E) (url : String) (rule : Rule)
    (hc : CacheOK m.regexCache) (hd : isDeclared rule.MatchType = false) :
    (m.autoMatch url rule).1 = ruleVerdict E url rule ∧
    (m.autoMatch url rule).2.rules = m.rules ∧
    CacheOK (m.autoMatch url rule).2.regexCache := by
  obtain ⟨n1, n2, n3, n4, n5, n6⟩ := matchTypes_ne
  unfold URLMatcher.autoMatch ruleVerdict effectiveMatchType inferredMatchType
  simp only [hd]
  by_cases h1 : URLMatcher.isRegexPattern rule.URLPattern = true
  · have := regexMatch_spec m url
      { Rule.zero with URLPattern := rule.URLPattern, MatchType := MatchTypeRegex } hc
    simpa [h1] using this
  · by_cases h2 : containsL rule.URLPattern.data ['*'] = true
    · simp [h1, h2, hc, Ne.symm n3, Ne.symm n5, Ne.symm n6, URLMatcher.wildcardMatch]
    · simp [h1, h2, hc, Ne.symm n2, Ne.symm n4, URLMatcher.keywordMatch]

theorem matchByType_spec {E : GoLib} (m : URLMatcher E) (url : String) (rule : Rule)
    (hc : CacheOK m.regexCache) :
    (m.matchByType url rule).1 = ruleVerdict E url rule ∧
    (m.matchByType url rule).2.rules = m.rules ∧
    CacheOK (m.matchByType url rule).2.regexCache := by
  obtain ⟨n1, n2, n3, n4, n5, n6⟩ := matchTypes_ne
  by_cases h1 : rule.MatchType = MatchTypeRegex
  · have := regexMatch_spec m url rule hc
    simpa [URLMatcher.matchByType, ruleVerdict, effectiveMatchType, isDeclared, h1] using this
  · by_cases h2 : rule.MatchType = MatchTypeExact
    · simp [URLMatcher.matchByType, ruleVerdict, effectiveMatchType, isDeclared, h2, hc, Ne.symm n1]
    · by_cases h3 : rule.MatchType = MatchTypeKeyword
      · simp [URLMatcher.matchByType, ruleVerdict, effectiveMatchType, isDeclared, h3, hc, Ne.symm n2, Ne.symm n4]
      · by_cases h4 : rule.MatchType = MatchTypeWildcard
        · simp [URLMatcher.matchByType, ruleVerdict, effectiveMatchType, isDeclared, h4, hc, Ne.symm n3,
            Ne.symm n5, Ne.symm n6]
        · have hd : isDeclared rule.MatchType = false := by
            simp [isDeclared, h1, h2, h3, h4]
          have := autoMatch_spec m url rule hc hd
          simpa [URLMatcher.matchByType, h1, h2, h3, h4] using this

theorem matchLoop_spec {E : GoLib} (url : String) (l : List Rule) :
    ∀ (m : URLMatcher E), CacheOK m.regexCache →
      (URLMatcher.matchLoop url l m).1 = firstMatch E l url ∧
      (URLMatcher.matchLoop url l m).2.rules = m.rules ∧
      CacheOK (URLMatcher.matchLoop url l m).2.regexCache := by
  induction l with
  | nil =>
    intro m hc
    simp [URLMatcher.matchLoop, firstMatch, hc]
  | cons rule rest ih =>
    intro m hc
    obtain ⟨hv, hr, hc'⟩ := matchByType_spec m url rule hc
    by_cases he : rule.Enabled = true
    · by_cases hm : (ruleVerdict E url rule).1 = true
      · simp [URLMatcher.matchLoop, firstMatch, accepts, he, hm, hv, hr, hc']
      · obtain ⟨i1, i2, i3⟩ := ih _ hc'
        simp only [Bool.not_eq_true] at hm
        simp [URLMatcher.matchLoop, firstMatch, accepts, he, hm, hv, i1, i2, i3, hr]
    · obtain ⟨i1, i2, i3⟩ := ih _ hc
      simp only [Bool.not_eq_true] at he
      simp [URLMatcher.matchLoop, firstMatch, accepts, he, i1, i2, i3]

theorem match_spec {E : GoLib} (m : URLMatcher E) (url : String) (hc : CacheOK m.regexCache) :
    (m.Match url).1 = firstMatch E m.rules url ∧ (m.Match url).2.rules = m.rules ∧
    CacheOK (m.Match url).2.regexCache :=
  matchLoop_spec url m.rules m hc

theorem precompileStep_spec {E : GoLib} (m : URLMatcher E) (rule : Rule)
    (hc : CacheOK m.regexCache) :
    (m.precompileStep rule).rules = m.rules ∧ CacheOK (m.precompileStep rule).regexCache := by
  unfold URLMatcher.precompileStep
  by_cases h1 : rule.MatchType = MatchTypeRegex
  · cases h2 : E.compile rule.URLPattern with
    | error err => simp [h1, hc]
    | ok regex => simp [h1, cacheOK_set hc h2]
  · simp [h1, hc]

theorem precompile_fold_spec {E : GoLib} (l : List Rule) :
    ∀ (m : URLMatcher E), CacheOK m.regexCache →
      (l.foldl URLMatcher.precompileStep m).rules = m.rules ∧
      CacheOK (l.foldl URLMatcher.precompileStep m).regexCache := by
  induction l with
  | nil => intro m hc; exact ⟨rfl, hc⟩
  | cons rule rest ih =>
    intro m hc
    obtain ⟨h1, h2⟩ := precompileStep_spec m rule hc
    obtain ⟨i1, i2⟩ := ih _ h2
    exact ⟨by simpa [h1] using i1, by simpa using i2⟩

theorem new_spec (E : GoLib) (rules : List Rule) :
    (NewURLMatcher E rules).rules = rules ∧ CacheOK (NewURLMatcher E rules).regexCache :=
  precompile_fold_spec rules { rules := rules, regexCache := [] } cacheOK_nil

theorem afterAll_spec {E : GoLib} (urls : List String) :
    ∀ (m : URLMatcher E), CacheOK m.regexCache →
      (m.afterAll urls).rules = m.rules ∧ CacheOK (m.afterAll urls).regexCache := by
  induction urls with
  | nil => intro m hc; exact ⟨rfl, hc⟩
  | cons url rest ih =>
    intro m hc
    obtain ⟨_, h2, h3⟩ := match_spec m url hc
    obtain ⟨i1, i2⟩ := ih _ h3
    exact ⟨by simpa [URLMatcher.afterAll, h2] using i1, by simpa [URLMatcher.afterAll] using i2⟩

theorem evaluate_eq (E : GoLib) (rules : List Rule) (urls : List String) (url : String) :
    evaluate E rules urls url = firstMatch E rules url := by
  obtain ⟨h1, h2⟩ := new_spec E rules
  obtain ⟨h3, h4⟩ := afterAll_spec urls (NewURLMatcher E rules) h2
  have := (match_spec ((NewURLMatcher E rules).afterAll urls) url h4).1
  rw [h3, h1] at this
  exact this

theorem hasPrefixL_self (s : List Char) : hasPrefixL s s = true := by
  induction s with
  | nil => rfl
  | cons c s ih => simp [hasPrefixL, ih]

theorem containsL_self (s : List Char) : containsL s s = true := by
  cases s with
  | nil => rfl
  | cons c s => simp [containsL, hasPrefixL_self]

theorem find_filter_enabled (E : GoLib) (url : String) (rules : List Rule) :
    (rules.filter (fun r => r.Enabled)).find? (accepts E url) = rules.find? (accepts E url) := by
  induction rules with
  | nil => rfl
  | cons r rest ih =>
    by_cases he : r.Enabled = true
    · by_cases ha : accepts E url r = true
      · simp [List.filter, he, ha]
      · simp [List.filter, he, ha, ih]
    · have ha : accepts E url r = false := by
        simp only [Bool.not_eq_true] at he
        simp [accepts, he]
      simp [List.filter, he, ha, ih]

/-! ## The claims -/

/-- C1: `Match` returns the first rule in list order that is enabled and whose
strategy accepts the URL, with `Matched = true`; disabled rules are skipped;
when no enabled rule accepts the URL (the empty list included) it returns
`Matched = false` with the detail "未匹配任何规则".  A Keyword rule "foo" placed
before an Exact rule "foo" is the one returned for the URL "foo". -/
theorem match_returns_first_accepting_rule (E : GoLib) (rules : List Rule)
    (urls : List String) (url : String) :
    evaluate E rules urls url = firstMatch E rules url ∧
    (∀ l1 r l2, rules = l1 ++ r :: l2 → (∀ x ∈ l1, accepts E url x = false) →
      accepts E url r = true →
      evaluate E rules urls url = ⟨true, r, r.MatchType, (ruleVerdict E url r).2⟩) ∧
    ((∀ x ∈ rules, accepts E url x = false) →
      evaluate E rules urls url = ⟨false, Rule.zero, "", "未匹配任何规则"⟩) ∧
    ((evaluate E rules urls url).Matched = true →
      ∃ l1 l2, rules = l1 ++ (evaluate E rules urls url).Rule :: l2 ∧
        (∀ x ∈ l1, accepts E url x = false) ∧
        accepts E url (evaluate E rules urls url).Rule = true) ∧
    evaluate E (rules.filter (fun r => r.Enabled)) urls url = evaluate E rules urls url ∧
    (∀ x, x.Enabled = false → accepts E url x = false) ∧
    (∀ nameA nameB : String,
      (evaluate E [⟨nameA, "foo", MatchTypeKeyword, "", true⟩,
        ⟨nameB, "foo", MatchTypeExact, "", true⟩] urls "foo").Matched = true ∧
      (evaluate E [⟨nameA, "foo", MatchTypeKeyword, "", true⟩,
        ⟨nameB, "foo", MatchTypeExact, "", true⟩] urls "foo").Rule
        = ⟨nameA, "foo", MatchTypeKeyword, "", true⟩) := by
  refine ⟨evaluate_eq E rules urls url, ?_, ?_, ?_, ?_, ?_, ?_⟩
  · intro l1 r l2 hr hl1 ha
    have hf : rules.find? (accepts E url) = some r := by
      rw [List.find?_eq_some]
      refine ⟨ha, l1, l2, hr, ?_⟩
      intro a hmem
      simp [hl1 a hmem]
    rw [evaluate_eq, firstMatch, hf]
  · intro hall
    have hf : rules.find? (accepts E url) = none := by
      rw [List.find?_eq_none]
      intro x hx
      simp [hall x hx]
    rw [evaluate_eq, firstMatch, hf]
  · rw [evaluate_eq]
    intro hm
    cases hf : rules.find? (accepts E url) with
    | none => simp [firstMatch, hf] at hm
    | some r =>
      obtain ⟨ha, l1, l2, hr, hl1⟩ := List.find?_eq_some.mp hf
      refine ⟨l1, l2, ?_, ?_, ?_⟩
      · simpa [firstMatch, hf] using hr
      · intro x hx
        simpa using hl1 x hx
      · simpa [firstMatch, hf] using ha
  · rw [evaluate_eq, evaluate_eq, firstMatch, firstMatch, find_filter_enabled]
  · intro x hx
    simp [accepts, hx]
  · intro nameA nameB
    have hk : accepts E "foo" ⟨nameA, "foo", MatchTypeKeyword, "", true⟩ = true := by
      have hp : URLMatcher.parseKeywords "foo" = ["foo"] := by decide
      have ht : trimSpaceL "foo".data = "foo".data := by decide
      obtain ⟨n1, n2, n3, n4, n5, n6⟩ := matchTypes_ne
      simp [accepts, ruleVerdict, effectiveMatchType, isDeclared, Ne.symm n2, Ne.symm n4,
        URLMatcher.keywordMatch, URLMatcher.matchedKeywords, hp, ht, containsL_self]
    rw [evaluate_eq]
    simp [firstMatch, hk]

/-- C2: an enabled Exact rule, alone in a matcher, matches a URL if and only if
the URL equals the pattern rune for rune. -/
theorem exact_rule_matches_iff_equal (E : GoLib) (rule : Rule) (urls : List String)
    (url : String) (hen : rule.Enabled = true) (hx : rule.MatchType = MatchTypeExact) :
    ((evaluate E [rule] urls url).Matched = true ↔ url = rule.URLPattern) ∧
    (url = rule.URLPattern ↔ url.data = rule.URLPattern.data) := by
  obtain ⟨n1, n2, n3, n4, n5, n6⟩ := matchTypes_ne
  refine ⟨?_, ?_⟩
  · rw [evaluate_eq]
    by_cases h : url = rule.URLPattern
    · simp [firstMatch, accepts, ruleVerdict, effectiveMatchType, isDeclared, hen, hx, Ne.symm n1,
        URLMatcher.exactMatch, h]
    · simp [firstMatch, accepts, ruleVerdict, effectiveMatchType, isDeclared, hen, hx, Ne.symm n1,
        URLMatcher.exactMatch, h]
  · constructor
    · intro h; rw [h]
    · intro h; exact String.ext h

/-- Witness of C2: the Exact rule "foo" accepts "foo" and refuses "Foo", " foo"
and "foo/bar". -/
theorem exact_rule_matches_iff_equal_witness :
    (evaluate refLib [⟨"r", "foo", MatchTypeExact, "", true⟩] [] "foo").Matched = true ∧
    ¬ (evaluate refLib [⟨"r", "foo", MatchTypeExact, "", true⟩] [] "Foo").Matched = true ∧
    ¬ (evaluate refLib [⟨"r", "foo", MatchTypeExact, "", true⟩] [] " foo").Matched = true ∧
    ¬ (evaluate refLib [⟨"r", "foo", MatchTypeExact, "", true⟩] [] "foo/bar").Matched = true :=
  ⟨(exact_rule_matches_iff_equal refLib ⟨"r", "foo", MatchTypeExact, "", true⟩ [] "foo"
      rfl rfl).1.mpr rfl,
    fun h => absurd ((exact_rule_matches_iff_equal refLib ⟨"r", "foo", MatchTypeExact, "", true⟩
      [] "Foo" rfl rfl).1.mp h) (by decide),
    fun h => absurd ((exact_rule_matches_iff_equal refLib ⟨"r", "foo", MatchTypeExact, "", true⟩
      [] " foo" rfl rfl).1.mp h) (by decide),
    fun h => absurd ((exact_rule_matches_iff_equal refLib ⟨"r", "foo", MatchTypeExact, "", true⟩
      [] "foo/bar" rfl rfl).1.mp h) (by decide)⟩

theorem containsL_singleton (s : List Char) (c : Char) : containsL s [c] = true ↔ c ∈ s := by
  induction s with
  | nil => simp [containsL, hasPrefixL]
  | cons d s ih =>
    have hp : hasPrefixL s [] = true := by cases s <;> rfl
    simp only [containsL, hasPrefixL, hp, ih, Bool.or_eq_true, Bool.and_true, decide_eq_true_eq,
      List.mem_cons]
    constructor
    · rintro (h | h)
      · exact Or.inl h.symm
      · exact Or.inr h
    · rintro (h | h)
      · exact Or.inl h.symm
      · exact Or.inr h

theorem ruleVerdict_congr (E : GoLib) (url : String) (r r' : Rule)
    (hp : r'.URLPattern = r.URLPattern) (ht : effectiveMatchType r' = effectiveMatchType r) :
    ruleVerdict E url r' = ruleVerdict E url r := by
  simp [ruleVerdict, ht, hp, URLMatcher.exactMatch, URLMatcher.keywordMatch,
    URLMatcher.wildcardMatch]

theorem isDeclared_inferred (pattern : String) : isDeclared (inferredMatchType pattern) = true := by
  rcases inferred_cases pattern with h | h | h <;> simp [isDeclared, h]

theorem effective_with_inferred (rule : Rule) (hu : isDeclared rule.MatchType = false) :
    effectiveMatchType { rule with MatchType := inferredMatchType rule.URLPattern }
      = effectiveMatchType rule := by
  simp [effectiveMatchType, hu, isDeclared_inferred]

/-- C5: an enabled rule whose strategy is not declared (Unset) gets the verdict
of the rule with the same pattern and the inferred strategy: Regex when the
pattern contains one of `( ) [ ] { } ^ $ + ? | \`, otherwise Wildcard when it
contains `*`, otherwise Keyword.  "^/admin" is read as Regex, "/admin/*" as
Wildcard, "admin" as Keyword. -/
theorem unset_rule_uses_inferred_strategy (E : GoLib) (rule : Rule) (urls : List String)
    (url : String) (hen : rule.Enabled = true) (hu : isDeclared rule.MatchType = false) :
    (evaluate E [rule] urls url).Matched
      = (evaluate E [{ rule with MatchType := inferredMatchType rule.URLPattern }] urls
          url).Matched ∧
    (evaluate E [rule] urls url).Details
      = (evaluate E [{ rule with MatchType := inferredMatchType rule.URLPattern }] urls
          url).Details ∧
    (∀ m : URLMatcher E,
      m.matchByType url rule
        = m.matchByType url { rule with MatchType := inferredMatchType rule.URLPattern }) ∧
    (inferredMatchType rule.URLPattern = MatchTypeRegex ↔
      ∃ c ∈ ['(', ')', '[', ']', '{', '}', '^', '$', '+', '?', '|', '\\'],
        c ∈ rule.URLPattern.data) ∧
    (inferredMatchType rule.URLPattern = MatchTypeWildcard ↔
      (¬ ∃ c ∈ ['(', ')', '[', ']', '{', '}', '^', '$', '+', '?', '|', '\\'],
        c ∈ rule.URLPattern.data) ∧ '*' ∈ rule.URLPattern.data) ∧
    (inferredMatchType rule.URLPattern = MatchTypeKeyword ↔
      (¬ ∃ c ∈ ['(', ')', '[', ']', '{', '}', '^', '$', '+', '?', '|', '\\'],
        c ∈ rule.URLPattern.data) ∧ '*' ∉ rule.URLPattern.data) ∧
    inferredMatchType "^/admin" = MatchTypeRegex ∧
    inferredMatchType "/admin/*" = MatchTypeWildcard ∧
    inferredMatchType "admin" = MatchTypeKeyword := by
  obtain ⟨n1, n2, n3, n4, n5, n6⟩ := matchTypes_ne
  obtain ⟨name, pattern, mt, descr, en⟩ := rule
  simp only at hen hu
  subst hen
  simp only
  have hv : ruleVerdict E url
      { (⟨name, pattern, mt, descr, true⟩ : Rule) with MatchType := inferredMatchType pattern }
      = ruleVerdict E url ⟨name, pattern, mt, descr, true⟩ :=
    ruleVerdict_congr E url _ _ rfl (effective_with_inferred ⟨name, pattern, mt, descr, true⟩ hu)
  have hre : URLMatcher.isRegexPattern pattern = true ↔
      ∃ c ∈ ['(', ')', '[', ']', '{', '}', '^', '$', '+', '?', '|', '\\'],
        c ∈ pattern.data := by
    unfold URLMatcher.isRegexPattern regexChars
    rw [List.any_eq_true]
    simp only [containsL_singleton]
  have hst : containsL pattern.data ['*'] = true ↔ '*' ∈ pattern.data :=
    containsL_singleton _ _
  refine ⟨?_, ?_, ?_, ?_, ?_, ?_, by decide, by decide, by decide⟩
  · rw [evaluate_eq, evaluate_eq]
    by_cases hm : (ruleVerdict E url ⟨name, pattern, mt, descr, true⟩).1 = true
    · simp [firstMatch, accepts, hv, hm]
    · simp [firstMatch, accepts, hv, hm]
  · rw [evaluate_eq, evaluate_eq]
    by_cases hm : (ruleVerdict E url ⟨name, pattern, mt, descr, true⟩).1 = true
    · simp [firstMatch, accepts, hv, hm]
    · simp [firstMatch, accepts, hv, hm]
  · intro m
    have h1 : mt ≠ MatchTypeRegex := by
      intro h; simp [isDeclared, h] at hu
    have h2 : mt ≠ MatchTypeExact := by
      intro h; simp [isDeclared, h] at hu
    have h3 : mt ≠ MatchTypeKeyword := by
      intro h; simp [isDeclared, h] at hu
    have h4 : mt ≠ MatchTypeWildcard := by
      intro h; simp [isDeclared, h] at hu
    unfold URLMatcher.matchByType URLMatcher.autoMatch inferredMatchType
    by_cases c1 : URLMatcher.isRegexPattern pattern = true
    · simp [h1, h2, h3, h4, c1, URLMatcher.regexMatch]
    · by_cases c2 : containsL pattern.data ['*'] = true
      · simp [h1, h2, h3, h4, c1, c2, Ne.symm n3, Ne.symm n5, Ne.symm n6,
          URLMatcher.wildcardMatch]
      · simp [h1, h2, h3, h4, c1, c2, Ne.symm n2, Ne.symm n4, URLMatcher.keywordMatch]
  · rw [← hre]
    unfold inferredMatchType
    by_cases c1 : URLMatcher.isRegexPattern pattern = true
    · simp [c1]
    · by_cases c2 : containsL pattern.data ['*'] = true
      · simp [c1, c2, Ne.symm n3]
      · simp [c1, c2, Ne.symm n2]
  · rw [← hre, ← hst]
    unfold inferredMatchType
    by_cases c1 : URLMatcher.isRegexPattern pattern = true
    · simp [c1, n3]
    · by_cases c2 : containsL pattern.data ['*'] = true
      · simp [c1, c2]
      · simp [c1, c2, n6]
  · rw [← hre]
    have hst' : '*' ∉ pattern.data ↔ ¬ containsL pattern.data ['*'] = true :=
      not_congr hst.symm
    rw [hst']
    unfold inferredMatchType
    by_cases c1 : URLMatcher.isRegexPattern pattern = true
    · simp [c1, n2]
    · by_cases c2 : containsL pattern.data ['*'] = true
      · simp [c1, c2, Ne.symm n6]
      · simp [c1, c2]

/-- Witness of C5: the Unset rule "admin" answers the URL "/Admin/users" as the
Keyword rule "admin" does: both match. -/
theorem unset_rule_uses_inferred_strategy_witness :
    (evaluate refLib [⟨"r", "admin", "", "", true⟩] [] "/Admin/users").Matched
      = (evaluate refLib [⟨"r", "admin", MatchTypeKeyword, "", true⟩] [] "/Admin/users").Matched ∧
    (evaluate refLib [⟨"r", "admin", MatchTypeKeyword, "", true⟩] [] "/Admin/users").Matched
      = true :=
  ⟨(unset_rule_uses_inferred_strategy refLib ⟨"r", "admin", "", "", true⟩ [] "/Admin/users"
      rfl (by decide)).1, by decide⟩

/-- Counterexample to C6: the enabled Unset rule "admin" matches the URL "admin"
through the Keyword strategy, and the result carries the empty (Unset) strategy. -/
theorem result_strategy_not_effective :
    ¬ (∀ (E : GoLib) (rules : List Rule) (urls : List String) (url : String),
        (evaluate E rules urls url).Matched = true →
        (evaluate E rules urls url).MatchType
          = effectiveMatchType (evaluate E rules urls url).Rule) := by
  intro h
  have := h refLib [⟨"r", "admin", "", "", true⟩] [] "admin" (by decide)
  revert this
  decide

/-- C6, amended: the strategy field of the result of `Match` is the declared
strategy of the returned rule, copied as it is.  It is the effective strategy
when that strategy is declared; for a matching rule that is Unset it stays
Unset, and differs from the inferred strategy. -/
theorem result_strategy_is_declared (E : GoLib) (rules : List Rule) (urls : List String)
    (url : String) :
    (evaluate E rules urls url).MatchType = (evaluate E rules urls url).Rule.MatchType ∧
    (isDeclared (evaluate E rules urls url).Rule.MatchType = true →
      (evaluate E rules urls url).MatchType
        = effectiveMatchType (evaluate E rules urls url).Rule) ∧
    (isDeclared (evaluate E rules urls url).Rule.MatchType = false →
      (evaluate E rules urls url).MatchType
        ≠ effectiveMatchType (evaluate E rules urls url).Rule) := by
  have h1 : (evaluate E rules urls url).MatchType
      = (evaluate E rules urls url).Rule.MatchType := by
    rw [evaluate_eq]
    unfold firstMatch
    cases rules.find? (accepts E url) <;> rfl
  refine ⟨h1, ?_, ?_⟩
  · intro hd
    rw [h1, effectiveMatchType, hd]
    rfl
  · intro hd he
    rw [h1] at he
    have := isDeclared_inferred (evaluate E rules urls url).Rule.URLPattern
    simp [effectiveMatchType, hd] at he
    rw [← he, hd] at this
    exact absurd this (by decide)

theorem defaultMatchType_eq (r : Rule) :
    Config.defaultMatchType r
      = if r.MatchType = "" then { r with MatchType := inferredMatchType r.URLPattern } else r := by
  unfold Config.defaultMatchType inferredMatchType
  have hc : Config.containsRegexChars r.URLPattern = URLMatcher.isRegexPattern r.URLPattern := rfl
  by_cases h0 : r.MatchType = ""
  · by_cases h1 : URLMatcher.isRegexPattern r.URLPattern = true
    · simp [h0, hc, h1]
    · by_cases h2 : containsL r.URLPattern.data ['*'] = true
      · simp [h0, hc, h1, h2]
      · simp [h0, hc, h1, h2]
  · simp [h0]

theorem defaultMatchType_fields (r : Rule) :
    (Config.defaultMatchType r).Name = r.Name ∧
    (Config.defaultMatchType r).URLPattern = r.URLPattern ∧
    (Config.defaultMatchType r).Enabled = r.Enabled ∧
    effectiveMatchType (Config.defaultMatchType r) = effectiveMatchType r := by
  rw [defaultMatchType_eq]
  by_cases h0 : r.MatchType = ""
  · have hu : isDeclared r.MatchType = false := by rw [h0]; decide
    rw [if_pos h0]
    exact ⟨rfl, rfl, rfl, effective_with_inferred r hu⟩
  · simp [h0]

theorem firstMatch_default (E : GoLib) (url : String) (l : List Rule) :
    (firstMatch E ((l.filter (fun r => r.Enabled)).map Config.defaultMatchType) url).Matched
      = (firstMatch E l url).Matched ∧
    (firstMatch E ((l.filter (fun r => r.Enabled)).map Config.defaultMatchType) url).Rule.Name
      = (firstMatch E l url).Rule.Name ∧
    (firstMatch E ((l.filter (fun r => r.Enabled)).map Config.defaultMatchType) url).Details
      = (firstMatch E l url).Details := by
  induction l with
  | nil => simp [firstMatch]
  | cons r rest ih =>
    obtain ⟨f1, f2, f3, f4⟩ := defaultMatchType_fields r
    have hv : ruleVerdict E url (Config.defaultMatchType r) = ruleVerdict E url r :=
      ruleVerdict_congr E url r _ f2 f4
    by_cases he : r.Enabled = true
    · by_cases hm : (ruleVerdict E url r).1 = true
      · simp [firstMatch, accepts, he, hm, hv, f1, f3]
      · have ha : accepts E url r = false := by simp [accepts, hm]
        have ha' : accepts E url (Config.defaultMatchType r) = false := by
          simp [accepts, hv, hm]
        simpa [firstMatch, List.filter, he, ha, ha'] using ih
    · have ha : accepts E url r = false := by
        simp only [Bool.not_eq_true] at he
        simp [accepts, he]
      simpa [firstMatch, List.filter, he, ha] using ih

/-- C10: `Config.GetEnabledRules` returns the enabled rules in their order, a
rule with an empty match type being given the strategy auto-detection infers
for its pattern; a matcher built from `GetEnabledRules()` gives every URL the
verdict, rule name and detail that a matcher built from the raw rule list
gives. -/
theorem getEnabledRules_agrees_with_autoMatch (E : GoLib) (c : Config)
    (urls urls' : List String) (url : String) :
    c.GetEnabledRules
      = (c.Rules.filter (fun r => r.Enabled)).map (fun r =>
          if r.MatchType = "" then { r with MatchType := inferredMatchType r.URLPattern }
          else r) ∧
    (∀ pattern, Config.containsRegexChars pattern = URLMatcher.isRegexPattern pattern) ∧
    (evaluate E c.GetEnabledRules urls url).Matched = (evaluate E c.Rules urls' url).Matched ∧
    (evaluate E c.GetEnabledRules urls url).Rule.Name
      = (evaluate E c.Rules urls' url).Rule.Name ∧
    (evaluate E c.GetEnabledRules urls url).Details
      = (evaluate E c.Rules urls' url).Details := by
  refine ⟨?_, fun _ => rfl, ?_⟩
  · rw [getEnabledRules_eq]
    apply List.map_congr_left
    intro r _
    exact defaultMatchType_eq r
  · rw [evaluate_eq, evaluate_eq, getEnabledRules_eq]
    exact firstMatch_default E url c.Rules

theorem firstMatch_accepts (E : GoLib) (rules : List Rule) (url : String)
    (hm : (firstMatch E rules url).Matched = true) :
    accepts E url (firstMatch E rules url).Rule = true := by
  cases hf : rules.find? (accepts E url) with
  | none => simp [firstMatch, hf] at hm
  | some r =>
    have := (List.find?_eq_some.mp hf).1
    simpa [firstMatch, hf] using this

theorem cacheGet_none_iff {E : GoLib} (c : Cache E) (k : String) :
    cacheGet c k = none ↔ k ∉ cacheKeys c := by
  induction c with
  | nil => simp [cacheGet, cacheKeys]
  | cons kv c ih =>
    obtain ⟨k0, v0⟩ := kv
    by_cases h : k0 = k
    · simp [cacheGet, cacheKeys, h]
    · have h' : ¬ k = k0 := fun e => h e.symm
      simpa [cacheGet, cacheKeys, h, h'] using ih

theorem cacheOK_not_mem {E : GoLib} {c : Cache E} {k : String} (hc : CacheOK c)
    (hk : ∃ err, E.compile k = .error err) : k ∉ cacheKeys c := by
  rw [← cacheGet_none_iff]
  cases h : cacheGet c k with
  | none => rfl
  | some v =>
    obtain ⟨err, he⟩ := hk
    have := hc k v h
    rw [he] at this
    cases this

/-- C7: a Regex rule whose pattern does not compile never matches and is never
the rule `Match` returns; `Match` answers as it does for the list without that
rule, and the pattern is in the cache neither after construction nor after any
calls of `Match`. -/
theorem invalid_regex_rule_never_matches (E : GoLib) (l1 l2 : List Rule) (r : Rule)
    (urls : List String) (url : String) (hr : r.MatchType = MatchTypeRegex)
    (hc : ∃ err, E.compile r.URLPattern = .error err) :
    evaluate E (l1 ++ r :: l2) urls url = evaluate E (l1 ++ l2) urls url ∧
    (ruleVerdict E url r).1 = false ∧
    ((evaluate E (l1 ++ r :: l2) urls url).Matched = true →
      (evaluate E (l1 ++ r :: l2) urls url).Rule ≠ r) ∧
    r.URLPattern ∉ cacheKeys (NewURLMatcher E (l1 ++ r :: l2)).regexCache ∧
    r.URLPattern ∉ cacheKeys ((NewURLMatcher E (l1 ++ r :: l2)).afterAll urls).regexCache ∧
    r.URLPattern ∉
      cacheKeys (((NewURLMatcher E (l1 ++ r :: l2)).afterAll urls).Match url).2.regexCache := by
  have hv : (ruleVerdict E url r).1 = false := by
    obtain ⟨err, he⟩ := hc
    simp [ruleVerdict, effectiveMatchType, isDeclared, hr, regexVerdict, he]
  have ha : accepts E url r = false := by simp [accepts, hv]
  obtain ⟨_, h2⟩ := new_spec E (l1 ++ r :: l2)
  obtain ⟨_, h4⟩ := afterAll_spec urls (NewURLMatcher E (l1 ++ r :: l2)) h2
  obtain ⟨_, _, h6⟩ := match_spec ((NewURLMatcher E (l1 ++ r :: l2)).afterAll urls) url h4
  refine ⟨?_, hv, ?_, cacheOK_not_mem h2 hc, cacheOK_not_mem h4 hc, cacheOK_not_mem h6 hc⟩
  · rw [evaluate_eq, evaluate_eq]
    simp [firstMatch, List.find?_append, ha]
  · rw [evaluate_eq]
    intro hm he
    have := firstMatch_accepts E _ url hm
    rw [he, ha] at this
    cases this

/-- Witness of C7: with the pattern "(unclosed", which the reference library
refuses, between a Keyword rule and an Exact rule. -/
theorem invalid_regex_rule_never_matches_witness :
    evaluate refLib
        ([⟨"k", "docs", MatchTypeKeyword, "", true⟩]
          ++ ⟨"bad", "(unclosed", MatchTypeRegex, "", true⟩
          :: [⟨"x", "(unclosed", MatchTypeExact, "", true⟩]) ["a"] "(unclosed"
      = evaluate refLib
        ([⟨"k", "docs", MatchTypeKeyword, "", true⟩]
          ++ [⟨"x", "(unclosed", MatchTypeExact, "", true⟩]) ["a"] "(unclosed" ∧
    (evaluate refLib
        ([⟨"k", "docs", MatchTypeKeyword, "", true⟩]
          ++ [⟨"x", "(unclosed", MatchTypeExact, "", true⟩]) ["a"] "(unclosed").Rule.Name
      = "x" :=
  ⟨(invalid_regex_rule_never_matches refLib [⟨"k", "docs", MatchTypeKeyword, "", true⟩]
      [⟨"x", "(unclosed", MatchTypeExact, "", true⟩]
      ⟨"bad", "(unclosed", MatchTypeRegex, "", true⟩ ["a"] "(unclosed" rfl
      ⟨_, rfl⟩).1, by decide⟩

theorem cacheSet_of_none {E : GoLib} {c : Cache E} {k : String} (v : E.Regexp)
    (h : cacheGet c k = none) : cacheSet k v c = c ++ [(k, v)] := by
  induction c with
  | nil => rfl
  | cons kv c ih =>
    obtain ⟨k0, v0⟩ := kv
    by_cases e : k0 = k
    · simp [cacheGet, e] at h
    · simp [cacheGet, e] at h
      simp [cacheSet, e, ih h]

theorem cacheKeys_cacheSet {E : GoLib} (c : Cache E) (k : String) (v : E.Regexp) :
    cacheKeys (cacheSet k v c) = if k ∈ cacheKeys c then cacheKeys c else cacheKeys c ++ [k] := by
  induction c with
  | nil => simp [cacheSet, cacheKeys]
  | cons kv c ih =>
    obtain ⟨k0, v0⟩ := kv
    by_cases e : k0 = k
    · simp [cacheSet, cacheKeys, e]
    · have e' : ¬ k = k0 := fun h => e h.symm
      unfold cacheKeys at ih
      by_cases hm : k ∈ List.map Prod.fst c
      · simp [cacheSet, cacheKeys, e, e', hm, ih]
      · simp [cacheSet, cacheKeys, e, e', hm, ih]

theorem cacheGet_append_of_some {E : GoLib} (c added : Cache E) {k : String} {v : E.Regexp}
    (h : cacheGet c k = some v) : cacheGet (c ++ added) k = some v := by
  induction c with
  | nil => simp [cacheGet] at h
  | cons kv c ih =>
    obtain ⟨k0, v0⟩ := kv
    by_cases e : k0 = k
    · simpa [cacheGet, e] using h
    · simp [cacheGet, e] at h
      simpa [cacheGet, e] using ih h

theorem precompileStep_keys {E : GoLib} (m : URLMatcher E) (rule : Rule) :
    ((cacheKeys m.regexCache).Nodup → (cacheKeys (m.precompileStep rule).regexCache).Nodup) ∧
    ∀ k, k ∈ cacheKeys (m.precompileStep rule).regexCache ↔
      k ∈ cacheKeys m.regexCache ∨
        (rule.MatchType = MatchTypeRegex ∧ rule.URLPattern = k ∧ ∃ v, E.compile k = .ok v) := by
  unfold URLMatcher.precompileStep
  by_cases h1 : rule.MatchType = MatchTypeRegex
  · cases h2 : E.compile rule.URLPattern with
    | error err =>
      refine ⟨by simp [h1], ?_⟩
      intro k
      simp only [h1, if_true, true_and]
      constructor
      · exact Or.inl
      · rintro (h | ⟨rfl, v, hv⟩)
        · exact h
        · rw [h2] at hv; cases hv
    | ok regex =>
      simp only [h1, if_true, true_and, cacheKeys_cacheSet]
      by_cases hm : rule.URLPattern ∈ cacheKeys m.regexCache
      · refine ⟨by simp [hm], ?_⟩
        intro k
        simp only [hm, if_true]
        constructor
        · exact Or.inl
        · rintro (h | ⟨rfl, _⟩)
          · exact h
          · exact hm
      · refine ⟨?_, ?_⟩
        · intro hn
          simp only [hm, if_false]
          rw [List.nodup_append]
          refine ⟨hn, List.nodup_singleton _, ?_⟩
          intro a ha hb
          simp only [List.mem_singleton] at hb
          subst hb
          exact hm ha
        · intro k
          simp only [hm, if_false, List.mem_append, List.mem_singleton]
          constructor
          · rintro (h | rfl)
            · exact Or.inl h
            · exact Or.inr ⟨rfl, regex, h2⟩
          · rintro (h | ⟨rfl, _⟩)
            · exact Or.inl h
            · exact Or.inr rfl
  · refine ⟨by simp [h1], ?_⟩
    intro k
    simp [h1]

theorem precompile_fold_keys {E : GoLib} (l : List Rule) :
    ∀ (m : URLMatcher E),
      ((cacheKeys m.regexCache).Nodup →
        (cacheKeys (l.foldl URLMatcher.precompileStep m).regexCache).Nodup) ∧
      ∀ k, k ∈ cacheKeys (l.foldl URLMatcher.precompileStep m).regexCache ↔
        k ∈ cacheKeys m.regexCache ∨
          ∃ r ∈ l, r.MatchType = MatchTypeRegex ∧ r.URLPattern = k ∧ ∃ v, E.compile k = .ok v := by
  induction l with
  | nil => intro m; simp
  | cons rule rest ih =>
    intro m
    obtain ⟨s1, s2⟩ := precompileStep_keys m rule
    obtain ⟨i1, i2⟩ := ih (m.precompileStep rule)
    refine ⟨fun hn => i1 (s1 hn), ?_⟩
    intro k
    simp only [List.foldl, i2, s2, List.mem_cons]
    constructor
    · rintro ((h | h) | ⟨r, hr, h⟩)
      · exact Or.inl h
      · exact Or.inr ⟨rule, Or.inl rfl, h⟩
      · exact Or.inr ⟨r, Or.inr hr, h⟩
    · rintro (h | ⟨r, (rfl | hr), h⟩)
      · exact Or.inl (Or.inl h)
      · exact Or.inl (Or.inr h)
      · exact Or.inr ⟨r, hr, h⟩

theorem new_keys (E : GoLib) (rules : List Rule) :
    (cacheKeys (NewURLMatcher E rules).regexCache).Nodup ∧
    ∀ k, k ∈ cacheKeys (NewURLMatcher E rules).regexCache ↔
      ∃ r ∈ rules, r.MatchType = MatchTypeRegex ∧ r.URLPattern = k ∧ ∃ v, E.compile k = .ok v := by
  obtain ⟨h1, h2⟩ := precompile_fold_keys rules ({ rules := rules, regexCache := [] } : URLMatcher E)
  refine ⟨h1 (by simp [cacheKeys]), ?_⟩
  intro k
  have := h2 k
  simpa [cacheKeys] using this

/-- The pattern of the rule is cached, or does not compile. -/
theorem regexMatch_fixed {E : GoLib} (m : URLMatcher E) (url : String) (rule : Rule)
    (h : rule.URLPattern ∈ cacheKeys m.regexCache ∨ ∃ err, E.compile rule.URLPattern = .error err) :
    (m.regexMatch url rule).2 = m := by
  unfold URLMatcher.regexMatch
  cases hg : cacheGet m.regexCache rule.URLPattern with
  | some regex => rfl
  | none =>
    rcases h with h | ⟨err, he⟩
    · exact absurd h ((cacheGet_none_iff _ _).mp hg)
    · simp [he]

theorem matchByType_fixed {E : GoLib} (m : URLMatcher E) (url : String) (rule : Rule)
    (hd : isDeclared rule.MatchType = true)
    (h : rule.MatchType = MatchTypeRegex →
      rule.URLPattern ∈ cacheKeys m.regexCache ∨ ∃ err, E.compile rule.URLPattern = .error err) :
    (m.matchByType url rule).2 = m := by
  unfold URLMatcher.matchByType
  by_cases h1 : rule.MatchType = MatchTypeRegex
  · simp only [h1, if_true]
    exact regexMatch_fixed m url rule (h h1)
  · by_cases h2 : rule.MatchType = MatchTypeExact
    · rw [if_neg h1, if_pos h2]
    · by_cases h3 : rule.MatchType = MatchTypeKeyword
      · rw [if_neg h1, if_neg h2, if_pos h3]
      · by_cases h4 : rule.MatchType = MatchTypeWildcard
        · rw [if_neg h1, if_neg h2, if_neg h3, if_pos h4]
        · simp [isDeclared, h1, h2, h3, h4] at hd

theorem matchLoop_fixed {E : GoLib} (url : String) (m : URLMatcher E) (l : List Rule)
    (h : ∀ r ∈ l, isDeclared r.MatchType = true ∧ (r.MatchType = MatchTypeRegex →
      r.URLPattern ∈ cacheKeys m.regexCache ∨ ∃ err, E.compile r.URLPattern = .error err)) :
    (URLMatcher.matchLoop url l m).2 = m := by
  induction l with
  | nil => rfl
  | cons rule rest ih =>
    have hr := h rule (List.mem_cons_self _ _)
    have hf := matchByType_fixed m url rule hr.1 hr.2
    have ih' := ih (fun r hmem => h r (List.mem_cons_of_mem _ hmem))
    unfold URLMatcher.matchLoop
    by_cases he : rule.Enabled = true
    · by_cases hm : (m.matchByType url rule).1.1 = true
      · simp [he, hm, hf]
      · simp [he, hm, hf, ih']
    · simp [he, ih']

theorem new_match_fixed (E : GoLib) (rules : List Rule) (url : String)
    (hd : ∀ r ∈ rules, isDeclared r.MatchType = true) :
    ((NewURLMatcher E rules).Match url).2 = NewURLMatcher E rules := by
  unfold URLMatcher.Match
  rw [(new_spec E rules).1]
  apply matchLoop_fixed
  intro r hr
  refine ⟨hd r hr, ?_⟩
  intro hre
  cases hc : E.compile r.URLPattern with
  | error err => exact Or.inr ⟨err, rfl⟩
  | ok v => exact Or.inl (((new_keys E rules).2 _).mpr ⟨r, hr, hre, rfl, v, hc⟩)

theorem new_afterAll_fixed (E : GoLib) (rules : List Rule) (urls : List String)
    (hd : ∀ r ∈ rules, isDeclared r.MatchType = true) :
    (NewURLMatcher E rules).afterAll urls = NewURLMatcher E rules := by
  induction urls with
  | nil => rfl
  | cons url rest ih =>
    unfold URLMatcher.afterAll at ih ⊢
    rw [List.foldl, new_match_fixed E rules url hd, ih]

theorem regexMatch_grows {E : GoLib} (m : URLMatcher E) (url : String) (rule : Rule) :
    ∃ added, (m.regexMatch url rule).2.regexCache = m.regexCache ++ added := by
  unfold URLMatcher.regexMatch
  cases hg : cacheGet m.regexCache rule.URLPattern with
  | some regex => exact ⟨[], by simp⟩
  | none =>
    cases hc : E.compile rule.URLPattern with
    | error err => exact ⟨[], by simp⟩
    | ok regex => exact ⟨[(rule.URLPattern, regex)], by simp [cacheSet_of_none regex hg]⟩

theorem matchByType_grows {E : GoLib} (m : URLMatcher E) (url : String) (rule : Rule) :
    ∃ added, (m.matchByType url rule).2.regexCache = m.regexCache ++ added := by
  unfold URLMatcher.matchByType URLMatcher.autoMatch
  split
  · exact regexMatch_grows m url rule
  · split
    · exact ⟨[], by simp⟩
    · split
      · exact ⟨[], by simp⟩
      · split
        · exact ⟨[], by simp⟩
        · simp only
          split
          · exact regexMatch_grows m url _
          · split
            · exact ⟨[], by simp⟩
            · exact ⟨[], by simp⟩

theorem matchLoop_grows {E : GoLib} (url : String) (l : List Rule) :
    ∀ m : URLMatcher E,
      ∃ added, (URLMatcher.matchLoop url l m).2.regexCache = m.regexCache ++ added := by
  induction l with
  | nil => intro m; exact ⟨[], by simp [URLMatcher.matchLoop]⟩
  | cons rule rest ih =>
    intro m
    unfold URLMatcher.matchLoop
    by_cases he : rule.Enabled = true
    · obtain ⟨a1, h1⟩ := matchByType_grows m url rule
      by_cases hm : (m.matchByType url rule).1.1 = true
      · exact ⟨a1, by simp [he, hm, h1]⟩
      · obtain ⟨a2, h2⟩ := ih (m.matchByType url rule).2
        exact ⟨a1 ++ a2, by simp [he, hm, h2, h1]⟩
    · obtain ⟨a, h⟩ := ih m
      exact ⟨a, by simp [he, h]⟩

/-- C8: when every rule has a declared strategy, `Match` leaves the cache as
`NewURLMatcher` left it, whatever URLs are matched: its keys are the distinct
patterns of the Regex rules that compile, each bound to its compiled
expression, and its size after N URLs is its size after one.  For any matcher,
`Match` only adds entries at the end of the cache: none is removed or replaced. -/
theorem match_keeps_precompiled_cache (E : GoLib) (rules : List Rule) (urls : List String)
    (hd : ∀ r ∈ rules, isDeclared r.MatchType = true) :
    ((NewURLMatcher E rules).afterAll urls).regexCache = (NewURLMatcher E rules).regexCache ∧
    (∀ url, ((NewURLMatcher E rules).afterAll urls).regexCache.length
      = ((NewURLMatcher E rules).afterAll [url]).regexCache.length) ∧
    (cacheKeys (NewURLMatcher E rules).regexCache).Nodup ∧
    (∀ k, k ∈ cacheKeys (NewURLMatcher E rules).regexCache ↔
      ∃ r ∈ rules, r.MatchType = MatchTypeRegex ∧ r.URLPattern = k ∧
        ∃ v, E.compile k = .ok v) ∧
    (∀ k v, cacheGet (NewURLMatcher E rules).regexCache k = some v → E.compile k = .ok v) ∧
    (∀ (m : URLMatcher E) (url : String),
      ∃ added, (m.Match url).2.regexCache = m.regexCache ++ added) ∧
    (∀ (m : URLMatcher E) (url k : String) (v : E.Regexp),
      cacheGet m.regexCache k = some v → cacheGet (m.Match url).2.regexCache k = some v) := by
  refine ⟨by rw [new_afterAll_fixed E rules urls hd], ?_, (new_keys E rules).1,
    (new_keys E rules).2, (new_spec E rules).2, ?_, ?_⟩
  · intro url
    rw [new_afterAll_fixed E rules urls hd, new_afterAll_fixed E rules [url] hd]
  · intro m url
    exact matchLoop_grows url m.rules m
  · intro m url k v h
    obtain ⟨added, ha⟩ := matchLoop_grows url m.rules m
    unfold URLMatcher.Match
    rw [ha]
    exact cacheGet_append_of_some _ _ h

/-- Witness of C8: a single Regex rule with the pattern "^https://docs\." keeps
a cache of size one over three URLs. -/
theorem match_keeps_precompiled_cache_witness :
    ((NewURLMatcher refLib [⟨"docs", "^https://docs\\.", MatchTypeRegex, "", true⟩]).afterAll
      ["https://docs.example.com/a", "http://example.com", "https://docs."]).regexCache.length
      = 1 :=
  (congrArg List.length
    (match_keeps_precompiled_cache refLib [⟨"docs", "^https://docs\\.", MatchTypeRegex, "", true⟩]
      ["https://docs.example.com/a", "http://example.com", "https://docs."]
      (by decide)).1).trans (by decide)

/-! ## Splitting and trimming -/

theorem splitL_ne_nil (sep : Char) (s : List Char) : splitL sep s ≠ [] := by
  cases s with
  | nil => simp [splitL]
  | cons c s =>
    unfold splitL
    by_cases h : c = sep
    · simp [h]
    · simp only [h, if_false]
      split <;> simp

theorem splitL_intercalate (sep : Char) (s : List Char) :
    [sep].intercalate (splitL sep s) = s := by
  induction s with
  | nil => rfl
  | cons c s ih =>
    unfold splitL
    by_cases h : c = sep
    · simp only [h, if_true]
      cases hs : splitL sep s with
      | nil => exact absurd hs (splitL_ne_nil sep s)
      | cons w ws =>
        rw [hs] at ih
        rw [← ih]
        simp [List.intercalate, List.intersperse]
    · simp only [h, if_false]
      cases hs : splitL sep s with
      | nil => exact absurd hs (splitL_ne_nil sep s)
      | cons w ws =>
        rw [hs] at ih
        rw [← ih]
        cases ws <;> simp [List.intercalate, List.intersperse]

theorem splitL_no_sep (sep : Char) (s : List Char) : ∀ w ∈ splitL sep s, sep ∉ w := by
  induction s with
  | nil => simp [splitL]
  | cons c s ih =>
    unfold splitL
    by_cases h : c = sep
    · simp only [h, if_true, List.mem_cons]
      rintro w (rfl | hw)
      · simp
      · exact ih w hw
    · simp only [h, if_false]
      cases hs : splitL sep s with
      | nil => exact absurd hs (splitL_ne_nil sep s)
      | cons w ws =>
        rw [hs] at ih
        simp only [List.mem_cons]
        rintro x (rfl | hx)
        · have := ih w (List.mem_cons_self _ _)
          simp only [List.mem_cons, not_or]
          exact ⟨fun e => h e.symm, this⟩
        · exact ih x (List.mem_cons_of_mem _ hx)

theorem splitL_of_not_mem (sep : Char) (s : List Char) (h : sep ∉ s) : splitL sep s = [s] := by
  induction s with
  | nil => rfl
  | cons c s ih =>
    simp only [List.mem_cons, not_or] at h
    have hc : ¬ c = sep := fun e => h.1 e.symm
    unfold splitL
    simp [hc, ih h.2]

theorem head_dropWhile_isSpace (s : List Char) (c : Char)
    (h : (s.dropWhile isSpace).head? = some c) : isSpace c = false := by
  induction s with
  | nil => simp at h
  | cons d s ih =>
    by_cases hd : isSpace d = true
    · rw [List.dropWhile_cons_of_pos hd] at h
      exact ih h
    · rw [List.dropWhile_cons_of_neg hd] at h
      simp only [List.head?_cons, Option.some.injEq] at h
      subst h
      simpa using hd

theorem dropWhile_of_head (s : List Char) (h : ∀ c, s.head? = some c → isSpace c = false) :
    s.dropWhile isSpace = s := by
  cases s with
  | nil => rfl
  | cons d s =>
    have := h d rfl
    simp [List.dropWhile, this]

theorem trimSpaceL_decomp (s : List Char) :
    ∃ pre post, s = pre ++ trimSpaceL s ++ post ∧ (∀ c ∈ pre, isSpace c = true) ∧
      (∀ c ∈ post, isSpace c = true) := by
  refine ⟨s.takeWhile isSpace,
    ((s.dropWhile isSpace).reverse.takeWhile isSpace).reverse, ?_, ?_, ?_⟩
  · have h1 := List.takeWhile_append_dropWhile isSpace s
    have h2 := List.takeWhile_append_dropWhile isSpace (s.dropWhile isSpace).reverse
    have h3 : s.dropWhile isSpace
        = ((s.dropWhile isSpace).reverse.dropWhile isSpace).reverse
          ++ ((s.dropWhile isSpace).reverse.takeWhile isSpace).reverse := by
      rw [← List.reverse_append, h2, List.reverse_reverse]
    unfold trimSpaceL
    rw [List.append_assoc, ← h3, h1]
  · intro c hc
    exact List.mem_takeWhile_imp hc
  · intro c hc
    rw [List.mem_reverse] at hc
    exact List.mem_takeWhile_imp hc

theorem trimSpaceL_last (s : List Char) (c : Char) (h : (trimSpaceL s).getLast? = some c) :
    isSpace c = false := by
  unfold trimSpaceL at h
  rw [List.getLast?_reverse] at h
  exact head_dropWhile_isSpace _ c h

theorem trimSpaceL_head (s : List Char) (c : Char) (h : (trimSpaceL s).head? = some c) :
    isSpace c = false := by
  have h3 : s.dropWhile isSpace
      = trimSpaceL s ++ ((s.dropWhile isSpace).reverse.takeWhile isSpace).reverse := by
    unfold trimSpaceL
    rw [← List.reverse_append, List.takeWhile_append_dropWhile, List.reverse_reverse]
  apply head_dropWhile_isSpace s c
  rw [h3, List.head?_append, h]
  rfl

theorem trimSpaceL_of_trimmed (s : List Char) (hh : ∀ c, s.head? = some c → isSpace c = false)
    (hl : ∀ c, s.getLast? = some c → isSpace c = false) : trimSpaceL s = s := by
  unfold trimSpaceL
  rw [dropWhile_of_head s hh, dropWhile_of_head s.reverse, List.reverse_reverse]
  intro c hc
  rw [List.head?_reverse] at hc
  exact hl c hc

theorem trimSpaceL_idem (s : List Char) : trimSpaceL (trimSpaceL s) = trimSpaceL s :=
  trimSpaceL_of_trimmed _ (trimSpaceL_head s) (trimSpaceL_last s)

theorem parseKeywords_fold (l : List (List Char)) :
    ∀ acc : List String,
      l.foldl (fun cleanKeywords keyword =>
        if trimSpaceL keyword ≠ [] then cleanKeywords ++ [String.mk (trimSpaceL keyword)]
        else cleanKeywords) acc
      = acc ++ ((l.map trimSpaceL).filter (fun w => decide (w ≠ []))).map String.mk := by
  induction l with
  | nil => intro acc; simp
  | cons w l ih =>
    intro acc
    simp only [List.foldl_cons, List.map_cons]
    by_cases h : trimSpaceL w = []
    · rw [if_neg (not_not_intro h), ih, List.filter_cons_of_neg (by simp [h])]
    · rw [if_pos h, ih, List.filter_cons_of_pos (by simp [h])]
      simp

theorem keywordPieces_eq (s : List Char) :
    (if containsL s [','] then splitL ',' s
      else if containsL s [';'] then splitL ';' s
      else if containsL s ['|'] then splitL '|' s
      else [s]) = keywordPieces s := by
  unfold keywordPieces keywordSeparator
  by_cases h1 : ',' ∈ s
  · simp [(containsL_singleton s ',').mpr h1, h1]
  · have c1 : containsL s [','] = false := by
      simpa using fun h => h1 ((containsL_singleton s ',').mp h)
    by_cases h2 : ';' ∈ s
    · simp [c1, h1, (containsL_singleton s ';').mpr h2, h2]
    · have c2 : containsL s [';'] = false := by
        simpa using fun h => h2 ((containsL_singleton s ';').mp h)
      by_cases h3 : '|' ∈ s
      · simp [c1, h1, c2, h2, (containsL_singleton s '|').mpr h3, h3]
      · have c3 : containsL s ['|'] = false := by
          simpa using fun h => h3 ((containsL_singleton s '|').mp h)
        simp [c1, h1, c2, h2, c3, h3]

theorem parseKeywords_eq (pattern : String) :
    URLMatcher.parseKeywords pattern
      = (((keywordPieces pattern.data).map trimSpaceL).filter
          (fun w => decide (w ≠ []))).map String.mk := by
  unfold URLMatcher.parseKeywords
  simp only [keywordPieces_eq]
  have := parseKeywords_fold (keywordPieces pattern.data) []
  simpa using this

theorem parseKeywords_token (pattern t : String) (ht : t ∈ URLMatcher.parseKeywords pattern) :
    t ≠ "" ∧ trimSpaceL t.data = t.data ∧ ∃ w ∈ keywordPieces pattern.data, t.data = trimSpaceL w := by
  rw [parseKeywords_eq] at ht
  simp only [List.mem_map, List.mem_filter, decide_eq_true_eq] at ht
  obtain ⟨w', ⟨⟨w, hw, rfl⟩, hne⟩, rfl⟩ := ht
  refine ⟨?_, trimSpaceL_idem w, w, hw, rfl⟩
  intro h
  apply hne
  have := congrArg String.data h
  simpa using this

/-- C9: `parseKeywords` splits the pattern on one separator only, the first of
`,`, `;`, `|` that occurs in it (the pieces joined by that separator give the
pattern back and none contains it, so the other separators stay inside the
pieces; without a separator the pattern is the single piece), then trims each
piece and drops the empty ones, in order.  Every returned token is non-empty
and has no white space at either end.  "a;b,c" gives "a;b" and "c". -/
theorem parseKeywords_splits_on_first_separator (pattern : String) :
    URLMatcher.parseKeywords pattern
      = (((keywordPieces pattern.data).map trimSpaceL).filter
          (fun w => decide (w ≠ []))).map String.mk ∧
    (∀ sep, keywordSeparator pattern.data = some sep →
      sep ∈ pattern.data ∧
      [sep].intercalate (keywordPieces pattern.data) = pattern.data ∧
      (∀ w ∈ keywordPieces pattern.data, sep ∉ w)) ∧
    (keywordSeparator pattern.data = some ',' ↔ ',' ∈ pattern.data) ∧
    (keywordSeparator pattern.data = some ';' ↔ ',' ∉ pattern.data ∧ ';' ∈ pattern.data) ∧
    (keywordSeparator pattern.data = some '|' ↔
      ',' ∉ pattern.data ∧ ';' ∉ pattern.data ∧ '|' ∈ pattern.data) ∧
    (keywordSeparator pattern.data = none ↔
      ',' ∉ pattern.data ∧ ';' ∉ pattern.data ∧ '|' ∉ pattern.data) ∧
    (keywordSeparator pattern.data = none → keywordPieces pattern.data = [pattern.data]) ∧
    (∀ w : List Char, ∃ pre post, w = pre ++ trimSpaceL w ++ post ∧
      (∀ c ∈ pre, isSpace c = true) ∧ (∀ c ∈ post, isSpace c = true)) ∧
    (∀ t ∈ URLMatcher.parseKeywords pattern,
      t ≠ "" ∧ trimSpaceL t.data = t.data ∧
      (∀ c, t.data.head? = some c → isSpace c = false) ∧
      (∀ c, t.data.getLast? = some c → isSpace c = false)) ∧
    URLMatcher.parseKeywords "a;b,c" = ["a;b", "c"] ∧
    URLMatcher.parseKeywords "a;b|c" = ["a", "b|c"] ∧
    URLMatcher.parseKeywords " x y |, z" = ["x y |", "z"] ∧
    URLMatcher.parseKeywords "abc" = ["abc"] := by
  have hsep : ∀ sep, keywordSeparator pattern.data = some sep → sep ∈ pattern.data := by
    intro sep h
    unfold keywordSeparator at h
    split at h
    · cases h; assumption
    · split at h
      · cases h; assumption
      · split at h
        · cases h; assumption
        · cases h
  refine ⟨parseKeywords_eq pattern, ?_, ?_, ?_, ?_, ?_, ?_, trimSpaceL_decomp, ?_,
    by decide, by decide, by decide, by decide⟩
  · intro sep h
    refine ⟨hsep sep h, ?_, ?_⟩
    · simp only [keywordPieces, h]
      exact splitL_intercalate sep _
    · simp only [keywordPieces, h]
      exact splitL_no_sep sep _
  · unfold keywordSeparator
    by_cases h1 : ',' ∈ pattern.data
    · simp [h1]
    · by_cases h2 : ';' ∈ pattern.data
      · simp [h1, h2]
      · by_cases h3 : '|' ∈ pattern.data <;> simp [h1, h2, h3]
  · unfold keywordSeparator
    by_cases h1 : ',' ∈ pattern.data
    · simp [h1]
    · by_cases h2 : ';' ∈ pattern.data
      · simp [h1, h2]
      · by_cases h3 : '|' ∈ pattern.data <;> simp [h1, h2, h3]
  · unfold keywordSeparator
    by_cases h1 : ',' ∈ pattern.data
    · simp [h1]
    · by_cases h2 : ';' ∈ pattern.data
      · simp [h1, h2]
      · by_cases h3 : '|' ∈ pattern.data <;> simp [h1, h2, h3]
  · unfold keywordSeparator
    by_cases h1 : ',' ∈ pattern.data
    · simp [h1]
    · by_cases h2 : ';' ∈ pattern.data
      · simp [h1, h2]
      · by_cases h3 : '|' ∈ pattern.data <;> simp [h1, h2, h3]
  · intro h
    simp only [keywordPieces, h]
  · intro t ht
    obtain ⟨h1, h2, w, _, hw⟩ := parseKeywords_token pattern t ht
    refine ⟨h1, h2, ?_, ?_⟩
    · intro c hc
      rw [hw] at hc
      exact trimSpaceL_head w c hc
    · intro c hc
      rw [hw] at hc
      exact trimSpaceL_last w c hc

/-! ## Keyword matching -/

theorem hasPrefixL_iff (s p : List Char) : hasPrefixL s p = true ↔ ∃ post, s = p ++ post := by
  induction p generalizing s with
  | nil => cases s <;> simp [hasPrefixL]
  | cons d p ih =>
    cases s with
    | nil => simp [hasPrefixL]
    | cons c s =>
      simp only [hasPrefixL, Bool.and_eq_true, decide_eq_true_eq, ih, List.cons_append,
        List.cons.injEq]
      constructor
      · rintro ⟨h, post, hp⟩
        exact ⟨post, h, hp⟩
      · rintro ⟨post, h, hp⟩
        exact ⟨h, post, hp⟩

theorem containsL_iff (s sub : List Char) :
    containsL s sub = true ↔ ∃ pre post, s = pre ++ sub ++ post := by
  induction s with
  | nil =>
    simp only [containsL, hasPrefixL_iff]
    constructor
    · rintro ⟨post, h⟩
      exact ⟨[], post, by simpa using h⟩
    · rintro ⟨pre, post, h⟩
      have h' := h.symm
      simp only [List.append_eq_nil] at h'
      exact ⟨[], by simp [h'.1.2]⟩
  | cons c s ih =>
    simp only [containsL, Bool.or_eq_true, hasPrefixL_iff, ih]
    constructor
    · rintro (⟨post, h⟩ | ⟨pre, post, h⟩)
      · exact ⟨[], post, by simpa using h⟩
      · exact ⟨c :: pre, post, by simp [h]⟩
    · rintro ⟨pre, post, h⟩
      cases pre with
      | nil => exact Or.inl ⟨post, by simpa using h⟩
      | cons d pre =>
        simp only [List.cons_append, List.cons.injEq] at h
        exact Or.inr ⟨pre, post, h.2⟩

theorem containsL_tokenFound (E : GoLib) (url token : String) :
    containsL (E.toLowerL url.data) (E.toLowerL token.data) = true ↔ tokenFound E url token :=
  containsL_iff _ _

theorem matchedKeywords_fold (E : GoLib) (url : String) (ks : List String)
    (hk : ∀ t ∈ ks, t ≠ "" ∧ trimSpaceL t.data = t.data) :
    ∀ acc : List String,
      ks.foldl (fun matchedKeywords keyword =>
        if String.mk (trimSpaceL keyword.data) = "" then matchedKeywords
        else if containsL (E.toLowerL url.data)
            (E.toLowerL (String.mk (trimSpaceL keyword.data)).data) then
          matchedKeywords ++ [String.mk (trimSpaceL keyword.data)]
        else matchedKeywords) acc
      = acc ++ ks.filter (fun t => containsL (E.toLowerL url.data) (E.toLowerL t.data)) := by
  induction ks with
  | nil => intro acc; simp
  | cons t ks ih =>
    intro acc
    obtain ⟨h1, h2⟩ := hk t (List.mem_cons_self _ _)
    have ih' := ih (fun x hx => hk x (List.mem_cons_of_mem _ hx))
    have ht : String.mk (trimSpaceL t.data) = t := by rw [h2]
    simp only [List.foldl_cons, ht, if_neg h1, h2]
    by_cases hc : containsL (E.toLowerL url.data) (E.toLowerL t.data) = true
    · have he : String.mk t.data = t := rfl
      rw [if_pos hc, ih', he]
      simp [List.filter_cons, hc]
    · rw [if_neg hc, ih']
      simp [List.filter_cons, hc]

theorem matchedKeywords_eq (E : GoLib) (url pattern : String) :
    URLMatcher.matchedKeywords E url (URLMatcher.parseKeywords pattern)
      = (URLMatcher.parseKeywords pattern).filter
          (fun t => containsL (E.toLowerL url.data) (E.toLowerL t.data)) := by
  have := matchedKeywords_fold E url (URLMatcher.parseKeywords pattern)
    (fun t ht => ⟨(parseKeywords_token pattern t ht).1, (parseKeywords_token pattern t ht).2.1⟩) []
  simpa [URLMatcher.matchedKeywords] using this

theorem keywordMatch_cases (E : GoLib) (url : String) (rule : Rule) :
    ((∀ t ∈ URLMatcher.parseKeywords rule.URLPattern, tokenFound E url t) →
      URLMatcher.parseKeywords rule.URLPattern ≠ [] →
      URLMatcher.keywordMatch E url rule
        = (true, "所有关键词匹配成功: "
            ++ fmtStrings (URLMatcher.parseKeywords rule.URLPattern))) ∧
    ((∃ t ∈ URLMatcher.parseKeywords rule.URLPattern, tokenFound E url t) →
      ¬ (∀ t ∈ URLMatcher.parseKeywords rule.URLPattern, tokenFound E url t) →
      URLMatcher.keywordMatch E url rule
        = (true, "部分关键词匹配成功: " ++ fmtStrings
            ((URLMatcher.parseKeywords rule.URLPattern).filter
              (fun t => containsL (E.toLowerL url.data) (E.toLowerL t.data))))) ∧
    (¬ (∃ t ∈ URLMatcher.parseKeywords rule.URLPattern, tokenFound E url t) →
      URLMatcher.keywordMatch E url rule = (false, "关键词匹配失败")) := by
  unfold URLMatcher.keywordMatch
  simp only [matchedKeywords_eq]
  have hpos : ((URLMatcher.parseKeywords rule.URLPattern).filter
        (fun t => containsL (E.toLowerL url.data) (E.toLowerL t.data))).length > 0 ↔
      ∃ t ∈ URLMatcher.parseKeywords rule.URLPattern, tokenFound E url t := by
    rw [gt_iff_lt, List.length_pos_iff_exists_mem]
    simp only [List.mem_filter, containsL_tokenFound]
  have hall : ((URLMatcher.parseKeywords rule.URLPattern).filter
        (fun t => containsL (E.toLowerL url.data) (E.toLowerL t.data))).length
        = (URLMatcher.parseKeywords rule.URLPattern).length ↔
      ∀ t ∈ URLMatcher.parseKeywords rule.URLPattern, tokenFound E url t := by
    rw [List.filter_length_eq_length]
    simp only [containsL_tokenFound]
  refine ⟨?_, ?_, ?_⟩
  · intro h2 hne
    have h1 : ∃ t ∈ URLMatcher.parseKeywords rule.URLPattern, tokenFound E url t := by
      cases hp : URLMatcher.parseKeywords rule.URLPattern with
      | nil => exact absurd hp hne
      | cons t ts =>
        rw [hp] at h2
        exact ⟨t, List.mem_cons_self _ _, h2 t (List.mem_cons_self _ _)⟩
    have hf : (URLMatcher.parseKeywords rule.URLPattern).filter
        (fun t => containsL (E.toLowerL url.data) (E.toLowerL t.data))
        = URLMatcher.parseKeywords rule.URLPattern := by
      rw [List.filter_eq_self]
      intro t ht
      exact (containsL_tokenFound E url t).mpr (h2 t ht)
    rw [if_pos (hpos.mpr h1), if_pos (hall.mpr h2), hf]
  · intro h1 h2
    rw [if_pos (hpos.mpr h1), if_neg (fun h => h2 (hall.mp h))]
  · intro h1
    rw [if_neg (fun h => h1 (hpos.mp h))]

theorem evaluate_single (E : GoLib) (rule : Rule) (urls : List String) (url : String)
    (hen : rule.Enabled = true) :
    (evaluate E [rule] urls url).Matched = (ruleVerdict E url rule).1 ∧
    ((ruleVerdict E url rule).1 = true →
      (evaluate E [rule] urls url).Details = (ruleVerdict E url rule).2) := by
  rw [evaluate_eq]
  by_cases hm : (ruleVerdict E url rule).1 = true
  · simp [firstMatch, accepts, hen, hm]
  · simp [firstMatch, accepts, hen, hm]

theorem ruleVerdict_keyword (E : GoLib) (rule : Rule) (url : String)
    (hk : rule.MatchType = MatchTypeKeyword) :
    ruleVerdict E url rule = URLMatcher.keywordMatch E url rule := by
  obtain ⟨n1, n2, n3, n4, n5, n6⟩ := matchTypes_ne
  simp [ruleVerdict, effectiveMatchType, isDeclared, hk, Ne.symm n2, Ne.symm n4]

/-- C3: an enabled Keyword rule matches a URL if and only if at least one token
of its pattern occurs in the URL ignoring case (the lower-cased token is a
contiguous part of the lower-cased URL).  On a match the detail reads
"所有关键词匹配成功" (all keywords) when every token was found and
"部分关键词匹配成功" (some keywords) otherwise.  The pattern "a,b" matches the
URLs in which the lower-cased "a" or the lower-cased "b" occurs. -/
theorem keyword_rule_matches_iff_some_token (E : GoLib) (rule : Rule) (urls : List String)
    (url : String) (hen : rule.Enabled = true) (hk : rule.MatchType = MatchTypeKeyword) :
    ((evaluate E [rule] urls url).Matched = true ↔
      ∃ t ∈ URLMatcher.parseKeywords rule.URLPattern, tokenFound E url t) ∧
    ((evaluate E [rule] urls url).Matched = true →
      (∀ t ∈ URLMatcher.parseKeywords rule.URLPattern, tokenFound E url t) →
      (evaluate E [rule] urls url).Details
        = "所有关键词匹配成功: " ++ fmtStrings (URLMatcher.parseKeywords rule.URLPattern)) ∧
    ((evaluate E [rule] urls url).Matched = true →
      ¬ (∀ t ∈ URLMatcher.parseKeywords rule.URLPattern, tokenFound E url t) →
      (evaluate E [rule] urls url).Details
        = "部分关键词匹配成功: " ++ fmtStrings
            ((URLMatcher.parseKeywords rule.URLPattern).filter
              (fun t => containsL (E.toLowerL url.data) (E.toLowerL t.data)))) ∧
    (∀ x y : String, "所有关键词匹配成功: " ++ x ≠ "部分关键词匹配成功: " ++ y) ∧
    (rule.URLPattern = "a,b" →
      ((evaluate E [rule] urls url).Matched = true ↔
        (∃ pre post, E.toLowerL url.data = pre ++ [E.toLower 'a'] ++ post) ∨
        (∃ pre post, E.toLowerL url.data = pre ++ [E.toLower 'b'] ++ post))) := by
  obtain ⟨e1, e2⟩ := evaluate_single E rule urls url hen
  rw [ruleVerdict_keyword E rule url hk] at e1 e2
  obtain ⟨k1, k2, k3⟩ := keywordMatch_cases E url rule
  have hiff : (evaluate E [rule] urls url).Matched = true ↔
      ∃ t ∈ URLMatcher.parseKeywords rule.URLPattern, tokenFound E url t := by
    rw [e1]
    constructor
    · intro hm
      by_contra hne
      rw [k3 hne] at hm
      cases hm
    · intro hex
      by_cases hall : ∀ t ∈ URLMatcher.parseKeywords rule.URLPattern, tokenFound E url t
      · obtain ⟨t, ht, _⟩ := hex
        rw [k1 hall (List.ne_nil_of_mem ht)]
      · rw [k2 hex hall]
  refine ⟨hiff, ?_, ?_, ?_, ?_⟩
  · intro hm hall
    obtain ⟨t, ht, _⟩ := hiff.mp hm
    have := k1 hall (List.ne_nil_of_mem ht)
    rw [e2 (by rw [this]), this]
  · intro hm hall
    have := k2 (hiff.mp hm) hall
    rw [e2 (by rw [this]), this]
  · intro x y h
    have := congrArg String.data h
    simp only [String.data_append] at this
    exact absurd (List.head_eq_of_cons_eq this) (by decide)
  · intro hp
    rw [hiff, hp]
    have hpk : URLMatcher.parseKeywords "a,b" = ["a", "b"] := by decide
    rw [hpk]
    simp only [List.mem_cons, List.mem_singleton, List.not_mem_nil, or_false, exists_eq_or_imp,
      exists_eq_left, tokenFound]
    exact Iff.rfl

/-- Witness of C3: the Keyword rule "a,b" matches "https://B.example" (one of
its two tokens occurs) and does not match "https://x.y". -/
theorem keyword_rule_matches_iff_some_token_witness :
    (evaluate refLib [⟨"r", "a,b", MatchTypeKeyword, "", true⟩] [] "https://B.example").Matched
      = true ∧
    (∃ t ∈ URLMatcher.parseKeywords "a,b", tokenFound refLib "https://B.example" t) ∧
    (evaluate refLib [⟨"r", "a,b", MatchTypeKeyword, "", true⟩] [] "https://x.y").Matched
      = false ∧
    ¬ (∃ t ∈ URLMatcher.parseKeywords "a,b", tokenFound refLib "https://x.y" t) :=
  ⟨by decide,
    (keyword_rule_matches_iff_some_token refLib ⟨"r", "a,b", MatchTypeKeyword, "", true⟩ []
      "https://B.example" rfl rfl).1.mp (by decide),
    by decide,
    fun h => absurd ((keyword_rule_matches_iff_some_token refLib
      ⟨"r", "a,b", MatchTypeKeyword, "", true⟩ [] "https://x.y" rfl rfl).1.mpr h) (by decide)⟩

/-! ## The wildcard expression -/

theorem quoteMetaL_head (p : List Char) (c : Char) :
    hasPrefixL (c :: quoteMetaL p) ['\\', '*'] = false := by
  cases p with
  | nil => simp [quoteMetaL, hasPrefixL]
  | cons d p =>
    by_cases hd : quoteMetaSpecial d = true
    · simp [quoteMetaL, hd, hasPrefixL]
    · have hne : d ≠ '*' := by
        intro h
        subst h
        exact hd (by decide)
      simp [quoteMetaL, hd, hasPrefixL, hne]

theorem replace_quoteMeta (p : List Char) :
    replaceAllL (quoteMetaL p) ['\\', '*'] ['.', '*']
      = (p.map (fun c =>
          if c = '*' then ['.', '*'] else if quoteMetaSpecial c then ['\\', c] else [c])).flatten := by
  unfold replaceAllL
  induction p with
  | nil => rfl
  | cons c p ih =>
    by_cases hs : c = '*'
    · subst hs
      have : quoteMetaL ('*' :: p) = '\\' :: '*' :: quoteMetaL p := by
        simp [quoteMetaL, quoteMetaSpecial]
      rw [this]
      simp only [replaceAux, hasPrefixL, List.map_cons, List.flatten_cons, if_true]
      cases hq : quoteMetaL p <;> simp [hasPrefixL, replaceAux, ← ih, hq]
    · by_cases hd : quoteMetaSpecial c = true
      · have : quoteMetaL (c :: p) = '\\' :: c :: quoteMetaL p := by
          simp [quoteMetaL, hd]
        rw [this]
        have h1 : hasPrefixL ('\\' :: c :: quoteMetaL p) ['\\', '*'] = false := by
          simp [hasPrefixL, hs]
        have h2 := quoteMetaL_head p c
        simp only [replaceAux, h1, h2, List.map_cons, List.flatten_cons, hs, hd, if_true,
          if_false, ih]
        simp
      · have : quoteMetaL (c :: p) = c :: quoteMetaL p := by
          simp [quoteMetaL, hd]
        rw [this]
        have h2 := quoteMetaL_head p c
        simp only [replaceAux, h2, List.map_cons, List.flatten_cons, hs, hd, if_false, ih]
        simp

theorem wildcardToRegex_eq (pattern : String) :
    URLMatcher.wildcardToRegex pattern = String.mk (wildcardExpr pattern.data) := by
  unfold URLMatcher.wildcardToRegex wildcardExpr
  simp only [replace_quoteMeta]

theorem tokenize_star (s : List Char) :
    tokenize ('*' :: s) = (tokenize s).map (fun ts => Tok.star :: ts) := by
  rw [tokenize.eq_def]
  simp

theorem tokenize_dot (s : List Char) :
    tokenize ('.' :: s) = (tokenize s).map (fun ts => Tok.atom Atom.any :: ts) := by
  rw [tokenize.eq_def]
  simp

theorem tokenize_bol (s : List Char) :
    tokenize ('^' :: s) = (tokenize s).map (fun ts => Tok.bol :: ts) := by
  rw [tokenize.eq_def]
  simp

theorem tokenize_esc (c : Char) (s : List Char) (hc : quoteMetaSpecial c = true) :
    tokenize ('\\' :: c :: s) = (tokenize s).map (fun ts => Tok.atom (Atom.lit c) :: ts) := by
  rw [tokenize.eq_def]
  simp [hc]

theorem tokenize_lit (c : Char) (s : List Char) (hc : ¬ quoteMetaSpecial c = true) :
    tokenize (c :: s) = (tokenize s).map (fun ts => Tok.atom (Atom.lit c) :: ts) := by
  have h1 : c ≠ '\\' := by
    intro h; subst h; exact hc (by decide)
  have h2 : c ≠ '.' := by
    intro h; subst h; exact hc (by decide)
  have h3 : c ≠ '^' := by
    intro h; subst h; exact hc (by decide)
  have h4 : c ≠ '$' := by
    intro h; subst h; exact hc (by decide)
  have h5 : c ≠ '*' := by
    intro h; subst h; exact hc (by decide)
  rw [tokenize.eq_def]
  simp [h1, h2, h3, h4, h5, hc]

theorem tokenize_glob (p : List Char) :
    ∀ rest : List Char,
      tokenize ((p.map (fun c =>
          if c = '*' then ['.', '*'] else if quoteMetaSpecial c then ['\\', c] else [c])).flatten
          ++ rest)
        = (tokenize rest).map (fun ts => globToks p ++ ts) := by
  induction p with
  | nil => intro rest; simp [globToks]
  | cons c p ih =>
    intro rest
    have hg : ∀ ts, globToks (c :: p) ++ ts
        = (if c = '*' then [Tok.atom Atom.any, Tok.star] else [Tok.atom (Atom.lit c)])
          ++ (globToks p ++ ts) := by
      intro ts
      simp [globToks]
    simp only [hg]
    by_cases hs : c = '*'
    · subst hs
      simp only [List.map_cons, List.flatten_cons, if_true, List.cons_append, List.nil_append,
        List.append_assoc]
      rw [tokenize_dot, tokenize_star, ih]
      simp [Option.map_map, Function.comp_def]
    · by_cases hd : quoteMetaSpecial c = true
      · simp only [List.map_cons, List.flatten_cons, hs, hd, if_true, if_false, List.cons_append,
          List.nil_append, List.append_assoc]
        rw [tokenize_esc c _ hd, ih]
        simp [Option.map_map, Function.comp_def]
      · simp only [List.map_cons, List.flatten_cons, hs, hd, if_false, List.cons_append,
          List.nil_append, List.append_assoc, Bool.false_eq_true]
        rw [tokenize_lit c _ hd, ih]
        simp [Option.map_map, Function.comp_def]

theorem globToks_head (p : List Char) :
    globToks p ++ [Tok.eol] = [Tok.eol] ∨ ∃ a ts, globToks p ++ [Tok.eol] = Tok.atom a :: ts := by
  cases p with
  | nil => exact Or.inl rfl
  | cons c p =>
    right
    by_cases hs : c = '*'
    · exact ⟨Atom.any, _, by simp [globToks, hs]; rfl⟩
    · exact ⟨Atom.lit c, _, by simp [globToks, hs]; rfl⟩

theorem toPieces_atom_atom (a b : Atom) (ts : List Tok) :
    toPieces (Tok.atom a :: Tok.atom b :: ts)
      = (toPieces (Tok.atom b :: ts)).map (fun r => (⟨a, false⟩ :: r.1, r.2)) := by
  rw [toPieces.eq_def]

theorem toPieces_atom_eol (a : Atom) :
    toPieces [Tok.atom a, Tok.eol] = some ([⟨a, false⟩], true) := by
  rfl

theorem toPieces_atom_star (a : Atom) (ts : List Tok) :
    toPieces (Tok.atom a :: Tok.star :: ts)
      = (toPieces ts).map (fun r => (⟨a, true⟩ :: r.1, r.2)) := by
  rw [toPieces.eq_def]

theorem toPieces_glob (p : List Char) :
    toPieces (globToks p ++ [Tok.eol]) = some (globPieces p, true) := by
  induction p with
  | nil => rfl
  | cons c p ih =>
    by_cases hs : c = '*'
    · subst hs
      have : globToks ('*' :: p) ++ [Tok.eol]
          = Tok.atom Atom.any :: Tok.star :: (globToks p ++ [Tok.eol]) := by
        simp [globToks]
      rw [this, toPieces_atom_star, ih]
      simp [globPieces]
    · have : globToks (c :: p) ++ [Tok.eol]
          = Tok.atom (Atom.lit c) :: (globToks p ++ [Tok.eol]) := by
        simp [globToks, hs]
      rw [this]
      rcases globToks_head p with h | ⟨a, ts, h⟩
      · have hp : globPieces p = [] := by
          rw [h] at ih
          have : toPieces [Tok.eol] = some ([], true) := rfl
          rw [this] at ih
          simp only [Option.some.injEq, Prod.mk.injEq, and_true] at ih
          exact ih.symm
        rw [h, toPieces_atom_eol]
        simp [globPieces, hs] at hp ⊢
        exact hp
      · rw [h] at ih ⊢
        rw [toPieces_atom_atom, ih]
        simp [globPieces, hs]

theorem parseFrag_wildcard (pattern : List Char) :
    parseFrag (wildcardExpr pattern) = some ⟨true, globPieces pattern, true⟩ := by
  have ht : tokenize (wildcardExpr pattern) = some (Tok.bol :: (globToks pattern ++ [Tok.eol])) := by
    have h1 : tokenize ['$'] = some [Tok.eol] := by decide
    have := tokenize_glob pattern ['$']
    rw [h1] at this
    unfold wildcardExpr
    simp only [List.cons_append, List.nil_append, List.singleton_append]
    rw [tokenize_bol, this]
    rfl
  unfold parseFrag
  rw [ht]
  simp [toPieces_glob]

/-! ## Wildcard patterns and the fragment -/

theorem piecesMatch_to_glob {ps : List Piece} {u : List Char} (h : PiecesMatch ps u) :
    ∀ p : List Char, ps = globPieces p → GlobMatches p u := by
  induction h with
  | nil =>
    intro p hp
    cases p with
    | nil => exact GlobMatches.nil
    | cons c p => simp [globPieces] at hp
  | @one a c ps t ha _ ih =>
    intro p hp
    cases p with
    | nil => simp [globPieces] at hp
    | cons d p =>
      by_cases hs : d = '*'
      · simp [globPieces, hs] at hp
      · simp only [globPieces, List.map_cons, hs, if_false, List.cons.injEq, Piece.mk.injEq,
          and_true] at hp
        obtain ⟨rfl, hps⟩ := hp
        simp only [Atom.accepts, decide_eq_true_eq] at ha
        subst ha
        exact GlobMatches.lit hs (ih p hps)
  | @starSkip a ps t _ ih =>
    intro p hp
    cases p with
    | nil => simp [globPieces] at hp
    | cons d p =>
      by_cases hs : d = '*'
      · subst hs
        simp only [globPieces, List.map_cons, if_true, List.cons.injEq, Piece.mk.injEq,
          and_true] at hp
        exact GlobMatches.starSkip (ih p hp.2)
      · simp [globPieces, hs] at hp
  | @starStep a c ps t ha _ ih =>
    intro p hp
    cases p with
    | nil => simp [globPieces] at hp
    | cons d p =>
      by_cases hs : d = '*'
      · subst hs
        have hp' := hp
        simp only [globPieces, List.map_cons, if_true, List.cons.injEq, Piece.mk.injEq,
          and_true] at hp'
        obtain ⟨rfl, _⟩ := hp'
        simp only [Atom.accepts, decide_eq_true_eq] at ha
        exact GlobMatches.starStep ha (ih ('*' :: p) hp)
      · simp [globPieces, hs] at hp

theorem glob_to_piecesMatch {p u : List Char} (h : GlobMatches p u) :
    PiecesMatch (globPieces p) u := by
  induction h with
  | nil => exact PiecesMatch.nil
  | @lit c p t hc _ ih =>
    have : globPieces (c :: p) = ⟨Atom.lit c, false⟩ :: globPieces p := by
      simp [globPieces, hc]
    rw [this]
    exact PiecesMatch.one (by simp [Atom.accepts]) ih
  | @starSkip p t _ ih =>
    have : globPieces ('*' :: p) = ⟨Atom.any, true⟩ :: globPieces p := by
      simp [globPieces]
    rw [this]
    exact PiecesMatch.starSkip ih
  | @starStep c p t hc _ ih =>
    have : globPieces ('*' :: p) = ⟨Atom.any, true⟩ :: globPieces p := by
      simp [globPieces]
    rw [this] at ih ⊢
    exact PiecesMatch.starStep (by simp [Atom.accepts, hc]) ih

theorem fragMatches_anchored (ps : List Piece) (u : List Char) :
    FragMatches ⟨true, ps, true⟩ u ↔ PiecesMatch ps u := by
  constructor
  · rintro ⟨pre, mid, post, hu, hpre, hpost, hm⟩
    have h1 := hpre rfl
    have h2 := hpost rfl
    subst h1 h2
    simpa [hu] using hm
  · intro hm
    exact ⟨[], u, [], by simp, fun _ => rfl, fun _ => rfl, hm⟩

theorem fragMatches_wildcard (pattern u : List Char) :
    FragMatches ⟨true, globPieces pattern, true⟩ u ↔ GlobMatches pattern u := by
  rw [fragMatches_anchored]
  exact ⟨fun h => piecesMatch_to_glob h pattern rfl, glob_to_piecesMatch⟩

/-! ## The reference library implements the fragment -/

theorem matchStar_isSome (a : Atom) (k : List Char → Option Nat) (t : List Char) :
    (matchStar a k t).isSome = true ↔
      ∃ run rest, t = run ++ rest ∧ (∀ c ∈ run, a.accepts c = true) ∧ (k rest).isSome = true := by
  induction t with
  | nil =>
    simp only [matchStar]
    constructor
    · intro h
      exact ⟨[], [], rfl, by simp, h⟩
    · rintro ⟨run, rest, h, _, hk⟩
      have h' := h.symm
      simp only [List.append_eq_nil] at h'
      rw [h'.2] at hk
      exact hk
  | cons c t ih =>
    by_cases hc : a.accepts c = true
    · have hstep : (matchStar a k (c :: t)).isSome = true ↔
          (matchStar a k t).isSome = true ∨ (k (c :: t)).isSome = true := by
        simp only [matchStar, hc, if_true]
        cases hm : matchStar a k t with
        | none => simp
        | some n => simp
      rw [hstep, ih]
      constructor
      · rintro (⟨run, rest, h, hr, hk⟩ | hk)
        · refine ⟨c :: run, rest, by simp [h], ?_, hk⟩
          intro d hd
          rcases List.mem_cons.mp hd with rfl | hd
          · exact hc
          · exact hr d hd
        · exact ⟨[], c :: t, rfl, by simp, hk⟩
      · rintro ⟨run, rest, h, hr, hk⟩
        cases run with
        | nil =>
          right
          simp only [List.nil_append] at h
          rw [h]
          exact hk
        | cons d run =>
          left
          simp only [List.cons_append, List.cons.injEq] at h
          exact ⟨run, rest, h.2, fun x hx => hr x (List.mem_cons_of_mem _ hx), hk⟩
    · have hstep : matchStar a k (c :: t) = k (c :: t) := by
        simp [matchStar, hc]
      rw [hstep]
      constructor
      · intro hk
        exact ⟨[], c :: t, rfl, by simp, hk⟩
      · rintro ⟨run, rest, h, hr, hk⟩
        cases run with
        | nil =>
          simp only [List.nil_append] at h
          rw [h]
          exact hk
        | cons d run =>
          simp only [List.cons_append, List.cons.injEq] at h
          have := hr d (List.mem_cons_self _ _)
          rw [← h.1] at this
          exact absurd this hc

theorem piecesMatch_star_run (a : Atom) (ps : List Piece) (run mid : List Char)
    (hr : ∀ c ∈ run, a.accepts c = true) (hm : PiecesMatch ps mid) :
    PiecesMatch (⟨a, true⟩ :: ps) (run ++ mid) := by
  induction run with
  | nil => exact PiecesMatch.starSkip hm
  | cons c run ih =>
    exact PiecesMatch.starStep (hr c (List.mem_cons_self _ _))
      (ih (fun x hx => hr x (List.mem_cons_of_mem _ hx)))

theorem piecesMatch_star_inv {qs : List Piece} {u : List Char} (h : PiecesMatch qs u) :
    ∀ (a : Atom) (ps : List Piece), qs = ⟨a, true⟩ :: ps →
      ∃ run mid, u = run ++ mid ∧ (∀ c ∈ run, a.accepts c = true) ∧ PiecesMatch ps mid := by
  induction h with
  | nil => intro a ps hq; cases hq
  | one _ _ _ => intro a ps hq; cases hq
  | @starSkip b qs t hm _ =>
    intro a ps hq
    cases hq
    exact ⟨[], t, rfl, by simp, hm⟩
  | @starStep b c qs t hb _ ih =>
    intro a ps hq
    obtain ⟨run, mid, ht, hr, hm⟩ := ih a ps hq
    cases hq
    refine ⟨c :: run, mid, by simp [ht], ?_, hm⟩
    intro d hd
    rcases List.mem_cons.mp hd with rfl | hd
    · exact hb
    · exact hr d hd

theorem piecesMatch_nil_inv {u : List Char} (h : PiecesMatch [] u) : u = [] := by
  cases h
  rfl

theorem piecesMatch_one_inv {a : Atom} {ps : List Piece} {u : List Char}
    (h : PiecesMatch (⟨a, false⟩ :: ps) u) :
    ∃ c t, u = c :: t ∧ a.accepts c = true ∧ PiecesMatch ps t := by
  cases h with
  | one ha hm => exact ⟨_, _, rfl, ha, hm⟩

theorem matchHere_isSome (eol : Bool) (ps : List Piece) :
    ∀ t : List Char, (matchHere eol ps t).isSome = true ↔
      ∃ mid rest, t = mid ++ rest ∧ PiecesMatch ps mid ∧ (eol = true → rest = []) := by
  induction ps with
  | nil =>
    intro t
    constructor
    · intro h
      refine ⟨[], t, rfl, PiecesMatch.nil, ?_⟩
      intro he
      cases t with
      | nil => rfl
      | cons c t => simp [matchHere, he] at h
    · rintro ⟨mid, rest, ht, hm, he⟩
      have := piecesMatch_nil_inv hm
      subst this
      simp only [List.nil_append] at ht
      subst ht
      cases eol with
      | false => simp [matchHere]
      | true => simp [matchHere, he rfl]
  | cons p ps ih =>
    intro t
    obtain ⟨a, st⟩ := p
    cases st with
    | true =>
      have : matchHere eol (⟨a, true⟩ :: ps) t = matchStar a (matchHere eol ps) t := by
        simp [matchHere]
      rw [this, matchStar_isSome]
      constructor
      · rintro ⟨run, rest, ht, hr, hk⟩
        obtain ⟨mid, rest', hrest, hm, he⟩ := (ih rest).mp hk
        exact ⟨run ++ mid, rest', by simp [ht, hrest], piecesMatch_star_run a ps run mid hr hm, he⟩
      · rintro ⟨mid, rest, ht, hm, he⟩
        obtain ⟨run, mid', hmid, hr, hm'⟩ := piecesMatch_star_inv hm a ps rfl
        exact ⟨run, mid' ++ rest, by simp [ht, hmid], hr, (ih _).mpr ⟨mid', rest, rfl, hm', he⟩⟩
    | false =>
      cases t with
      | nil =>
        constructor
        · intro h
          simp [matchHere] at h
        · rintro ⟨mid, rest, ht, hm, _⟩
          have h' := ht.symm
          simp only [List.append_eq_nil] at h'
          obtain ⟨c, t', hc, _, _⟩ := piecesMatch_one_inv hm
          rw [h'.1] at hc
          cases hc
      | cons c t =>
        by_cases hc : a.accepts c = true
        · have : (matchHere eol (⟨a, false⟩ :: ps) (c :: t)).isSome
              = (matchHere eol ps t).isSome := by
            simp [matchHere, hc]
          rw [this, ih]
          constructor
          · rintro ⟨mid, rest, ht, hm, he⟩
            exact ⟨c :: mid, rest, by simp [ht], PiecesMatch.one hc hm, he⟩
          · rintro ⟨mid, rest, ht, hm, he⟩
            obtain ⟨d, t', hmid, _, hm'⟩ := piecesMatch_one_inv hm
            subst hmid
            simp only [List.cons_append, List.cons.injEq] at ht
            exact ⟨t', rest, ht.2, hm', he⟩
        · constructor
          · intro h
            simp [matchHere, hc] at h
          · rintro ⟨mid, rest, ht, hm, _⟩
            obtain ⟨d, t', hmid, hd, _⟩ := piecesMatch_one_inv hm
            subst hmid
            simp only [List.cons_append, List.cons.injEq] at ht
            rw [← ht.1] at hd
            exact absurd hd hc

theorem searchL_isSome (f : Frag) (u : List Char) :
    (searchL f u).isSome = true ↔ FragMatches f u := by
  induction u with
  | nil =>
    have : (searchL f []).isSome = (matchHere f.eol f.pieces []).isSome := by
      simp [searchL]
    rw [this, matchHere_isSome]
    constructor
    · rintro ⟨mid, rest, ht, hm, he⟩
      exact ⟨[], mid, rest, by simpa using ht, fun _ => rfl, he, hm⟩
    · rintro ⟨pre, mid, post, hu, _, he, hm⟩
      have h' := hu.symm
      simp only [List.append_eq_nil] at h'
      refine ⟨mid, post, by simp [h'.1.2, h'.2], hm, he⟩
  | cons c t ih =>
    cases hh : matchHere f.eol f.pieces (c :: t) with
    | some n =>
      have h1 : (searchL f (c :: t)).isSome = true := by simp [searchL, hh]
      have h2 : (matchHere f.eol f.pieces (c :: t)).isSome = true := by simp [hh]
      obtain ⟨mid, rest, ht, hm, he⟩ := (matchHere_isSome f.eol f.pieces (c :: t)).mp h2
      simp only [h1, true_iff]
      exact ⟨[], mid, rest, by simpa using ht, fun _ => rfl, he, hm⟩
    | none =>
      have hnot : ¬ ∃ mid rest, c :: t = mid ++ rest ∧ PiecesMatch f.pieces mid ∧
          (f.eol = true → rest = []) := by
        intro h
        have := (matchHere_isSome f.eol f.pieces (c :: t)).mpr h
        rw [hh] at this
        cases this
      by_cases hb : f.bol = true
      · have h1 : searchL f (c :: t) = none := by simp [searchL, hh, hb]
        rw [h1]
        constructor
        · intro h; cases h
        · rintro ⟨pre, mid, post, hu, hpre, he, hm⟩
          have := hpre hb
          subst this
          exact absurd ⟨mid, post, by simpa using hu, hm, he⟩ hnot
      · have h1 : searchL f (c :: t) = searchL f t := by simp [searchL, hh, hb]
        rw [h1, ih]
        constructor
        · rintro ⟨pre, mid, post, hu, _, he, hm⟩
          exact ⟨c :: pre, mid, post, by simp [hu], fun h => absurd h hb, he, hm⟩
        · rintro ⟨pre, mid, post, hu, _, he, hm⟩
          cases pre with
          | nil => exact absurd ⟨mid, post, by simpa using hu, hm, he⟩ hnot
          | cons d pre =>
            simp only [List.cons_append, List.cons.injEq] at hu
            exact ⟨pre, mid, post, by simpa using hu.2, fun h => absurd h hb, he, hm⟩

theorem refLib_conforms : refLib.Conforms := by
  intro s f hf
  refine ⟨f, ?_, ?_⟩
  · simp [refLib, hf]
  · intro u
    exact searchL_isSome f u.data

theorem ruleVerdict_wildcard (E : GoLib) (rule : Rule) (url : String)
    (hw : rule.MatchType = MatchTypeWildcard) :
    ruleVerdict E url rule = URLMatcher.wildcardMatch E url rule := by
  obtain ⟨n1, n2, n3, n4, n5, n6⟩ := matchTypes_ne
  simp [ruleVerdict, effectiveMatchType, isDeclared, hw, Ne.symm n3, Ne.symm n5, Ne.symm n6]

theorem wildcardMatch_iff (E : GoLib) (url : String) (rule : Rule) :
    (URLMatcher.wildcardMatch E url rule).1 = true ↔
      ∃ r, E.compile (URLMatcher.wildcardToRegex rule.URLPattern) = .ok r ∧
        E.matchString r url = true := by
  unfold URLMatcher.wildcardMatch
  cases hc : E.compile (URLMatcher.wildcardToRegex rule.URLPattern) with
  | error err => simp [hc]
  | ok r =>
    by_cases hm : E.matchString r url = true
    · simp [hc, hm]
    · simp [hc, hm]

/-- C4: an enabled Wildcard rule matches a URL if and only if the expression
"^" + E + "$" compiles and matches the URL, where E is the pattern rune by rune
with `.*` for each star and a backslash before every other special byte.  The
expression always lies in the fragment of literal atoms and starred dots, so
with a library that implements the fragment it always compiles, and the rule
matches exactly the URLs that the pattern spells out with every rune other
than `*` taken literally and each `*` standing for a run of runes. -/
theorem wildcard_rule_matches_whole_url (E : GoLib) (rule : Rule) (urls : List String)
    (url : String) (hen : rule.Enabled = true) (hw : rule.MatchType = MatchTypeWildcard) :
    URLMatcher.wildcardToRegex rule.URLPattern = String.mk (wildcardExpr rule.URLPattern.data) ∧
    ((evaluate E [rule] urls url).Matched = true ↔
      ∃ r, E.compile (URLMatcher.wildcardToRegex rule.URLPattern) = .ok r ∧
        E.matchString r url = true) ∧
    parseFrag (URLMatcher.wildcardToRegex rule.URLPattern).data
      = some ⟨true, globPieces rule.URLPattern.data, true⟩ ∧
    (E.Conforms →
      (∃ r, E.compile (URLMatcher.wildcardToRegex rule.URLPattern) = .ok r) ∧
      ((evaluate E [rule] urls url).Matched = true ↔
        GlobMatches rule.URLPattern.data url.data)) := by
  have hexpr := wildcardToRegex_eq rule.URLPattern
  have hparse : parseFrag (URLMatcher.wildcardToRegex rule.URLPattern).data
      = some ⟨true, globPieces rule.URLPattern.data, true⟩ := by
    rw [hexpr]
    exact parseFrag_wildcard rule.URLPattern.data
  have hiff : (evaluate E [rule] urls url).Matched = true ↔
      ∃ r, E.compile (URLMatcher.wildcardToRegex rule.URLPattern) = .ok r ∧
        E.matchString r url = true := by
    rw [(evaluate_single E rule urls url hen).1, ruleVerdict_wildcard E rule url hw]
    exact wildcardMatch_iff E url rule
  refine ⟨hexpr, hiff, hparse, ?_⟩
  intro hE
  obtain ⟨r, hr, hm⟩ := hE _ _ hparse
  refine ⟨⟨r, hr⟩, ?_⟩
  rw [hiff, ← fragMatches_wildcard, ← hm url]
  constructor
  · rintro ⟨r', hr', hm'⟩
    rw [hr] at hr'
    cases hr'
    exact hm'
  · intro h
    exact ⟨r, hr, h⟩

/-- Witness of C4: the pattern "https://*.example.com/*" matches
"https://mail.example.com/inbox" and does not match "https://example.com/inbox". -/
theorem wildcard_rule_matches_whole_url_witness :
    (evaluate refLib [⟨"w", "https://*.example.com/*", MatchTypeWildcard, "", true⟩] []
      "https://mail.example.com/inbox").Matched = true ∧
    GlobMatches "https://*.example.com/*".data "https://mail.example.com/inbox".data ∧
    (evaluate refLib [⟨"w", "https://*.example.com/*", MatchTypeWildcard, "", true⟩] []
      "https://example.com/inbox").Matched = false ∧
    ¬ GlobMatches "https://*.example.com/*".data "https://example.com/inbox".data ∧
    URLMatcher.wildcardToRegex "https://*.example.com/*" = "^https://.*\\.example\\.com/.*$" :=
  ⟨by decide,
    ((wildcard_rule_matches_whole_url refLib
      ⟨"w", "https://*.example.com/*", MatchTypeWildcard, "", true⟩ []
      "https://mail.example.com/inbox" rfl rfl).2.2.2 refLib_conforms).2.mp (by decide),
    by decide,
    fun h => absurd (((wildcard_rule_matches_whole_url refLib
      ⟨"w", "https://*.example.com/*", MatchTypeWildcard, "", true⟩ []
      "https://example.com/inbox" rfl rfl).2.2.2 refLib_conforms).2.mpr h) (by decide),
    by decide⟩

end UrlSwitchInput
